import Mathlib

/-!
# Verification of the snatch-frontend request-intake core

A shallow embedding, in Lean 4, of the request validation, sanitization and
rate-limiting pipeline of the `snatch-frontend` repository:

* `src/lib/validation.ts` — `validate`, `detectPlatform`, `extractContentId`,
  `sanitize`, together with the pattern table from `src/constants/platforms.ts`;
* `src/lib/rate-limiter.ts` — the persistent `RateLimiter` class
  (`load` / `check` / `reset` / `getStatus`);
* `src/middleware/security.ts` — the in-memory fallback limiter
  `checkRateLimitFallback`.

Times are epoch milliseconds modelled as `Nat` (`Date.now()`), strings as
Lean `String` / `List Char`.  JavaScript platform primitives used by the
source (`new URL`, `URLSearchParams`, `JSON.parse`) are modelled by
executable Lean functions that follow the WHATWG / JSON behaviour on the
fragment of inputs this program exercises; each model notes its scope in
its doc comment.
-/

namespace Snatch

/-! ## Generic character/list helpers -/

/-- ASCII lowercasing of a character, as `String.prototype.toLowerCase`
acts on ASCII input (`Char.toLower` is ASCII-only, which matches all inputs
considered here). -/
def lowerChar (c : Char) : Char := c.toLower

/-- ASCII digit, the regex class `[0-9]` / `\d`. -/
def isDigitChar (c : Char) : Bool :=
  48 ≤ c.toNat && c.toNat ≤ 57

/-- ASCII letter, the regex class `[A-Za-z]`. -/
def isAlphaChar (c : Char) : Bool :=
  (65 ≤ c.toNat && c.toNat ≤ 90) || (97 ≤ c.toNat && c.toNat ≤ 122)

/-- ASCII letter or digit, the regex class `[A-Za-z0-9]`. -/
def isAlphanumChar (c : Char) : Bool :=
  isAlphaChar c || isDigitChar c

/-- Lowercase every character of a list. -/
def lowerL (l : List Char) : List Char := l.map lowerChar

/-- `String.prototype.trim()`: drop leading and trailing JS whitespace.
`Char.isWhitespace` covers space, tab, CR and LF, the whitespace that can
actually occur in the inputs modelled here. -/
def jsTrim (l : List Char) : List Char :=
  ((l.dropWhile Char.isWhitespace).reverse.dropWhile Char.isWhitespace).reverse

/-- Substring containment on character lists (the model of a
case-sensitive regex/`includes` test for a literal pattern). -/
def containsSub : List Char → List Char → Bool
  | hay, needle =>
    if needle.isPrefixOf hay then true
    else match hay with
      | [] => false
      | _ :: t => containsSub t needle

/-- Containment of a literal pattern at some position `≥ 1`, the model of a
regex of the form `/.pattern/` whose leading `.` consumes one arbitrary
character. -/
def containsSubAt1 (hay needle : List Char) : Bool :=
  match hay with
  | [] => false
  | _ :: t => containsSub t needle

/-! ## Rate limiter state (`src/lib/rate-limiter.ts`) -/

/-- `interface RateLimitData { count: number; resetTime: number }`. -/
structure RateLimitData where
  count : Nat
  resetTime : Nat
  deriving DecidableEq, Repr

/-- `interface RateLimitStore { [clientId: string]: RateLimitData }` /
`Map<string, {count, resetTime}>`: a key-value store modelled as an
association list in insertion order. -/
def Store := List (String × RateLimitData)

instance : DecidableEq Store := inferInstanceAs (DecidableEq (List _))

/-- Property read `this.store[clientId]` / `requestCounts.get(clientId)`:
the value at the first occurrence of the key. -/
def Store.find? (s : Store) (c : String) : Option RateLimitData :=
  match s with
  | [] => none
  | (k, d) :: t => if k = c then some d else Store.find? t c

/-- Property write `this.store[clientId] = d` / `requestCounts.set(c, d)`:
replace the first binding of the key in place, else append. -/
def Store.set (s : Store) (c : String) (d : RateLimitData) : Store :=
  match s with
  | [] => [(c, d)]
  | (k, d') :: t => if k = c then (c, d) :: t else (k, d') :: Store.set t c d

/-- `delete this.store[clientId]`: remove every binding of the key. -/
def Store.erase (s : Store) (c : String) : Store :=
  s.filter (fun p => p.1 ≠ c)

/-- The value returned by `RateLimiter.check` / `checkRateLimitFallback`:
`{ allowed: boolean; resetTime?: number }`. -/
structure CheckResult where
  allowed : Bool
  resetTime : Option Nat
  deriving DecidableEq, Repr

/-- `RateLimiter.check(clientId)` (rate-limiter source, lines 118–151),
made pure by passing `Date.now()` and the store explicitly.  The
`window`/`max` parameters are the constructor arguments. -/
def check (window max : Nat) (s : Store) (clientId : String) (now : Nat) :
    CheckResult × Store :=
  -- `if (existing && now >= existing.resetTime) delete this.store[clientId]`
  let s1 : Store :=
    match s.find? clientId with
    | some existing => if existing.resetTime ≤ now then s.erase clientId else s
    | none => s
  match s1.find? clientId with
  | none =>
      -- no entry or expired: initialize with count 1
      (⟨true, none⟩, s1.set clientId ⟨1, now + window⟩)
  | some entry =>
      if max ≤ entry.count then
        -- rate limit exceeded
        (⟨false, some entry.resetTime⟩, s1)
      else
        -- increment count
        (⟨true, none⟩, s1.set clientId ⟨entry.count + 1, entry.resetTime⟩)

/-- `checkRateLimitFallback(clientId)` (security middleware), pure form.
Note the expiry comparison is `now > clientData.resetTime`, strict. -/
def checkFallback (window max : Nat) (s : Store) (clientId : String) (now : Nat) :
    CheckResult × Store :=
  match s.find? clientId with
  | none => (⟨true, none⟩, s.set clientId ⟨1, now + window⟩)
  | some clientData =>
      if clientData.resetTime < now then
        (⟨true, none⟩, s.set clientId ⟨1, now + window⟩)
      else if max ≤ clientData.count then
        (⟨false, some clientData.resetTime⟩, s)
      else
        (⟨true, none⟩, s.set clientId ⟨clientData.count + 1, clientData.resetTime⟩)

/-- Run `check` over a list of call times for one client, collecting the
`allowed` flags in order. -/
def checkSeq (window max : Nat) (clientId : String) (s : Store) :
    List Nat → List Bool × Store
  | [] => ([], s)
  | t :: ts =>
      let r := check window max s clientId t
      let rest := checkSeq window max clientId r.2 ts
      (r.1.allowed :: rest.1, rest.2)

/-! ## The persisted store file and `RateLimiter.load`

`save` writes `JSON.stringify(this.store)` — a JSON object mapping client
ids to `{"count":n,"resetTime":m}` objects, with no whitespace.  The
functions below model `JSON.parse` restricted to that grammar (any input
outside it is rejected, as `JSON.parse` rejects every string that is not
valid JSON — in particular the one string `load` actually feeds it). -/

/-- Parse a run of leading decimal digits (a JSON non-negative integer);
fails when there is none. -/
def parseNatPart (l : List Char) : Option (Nat × List Char) :=
  let digits := l.takeWhile isDigitChar
  if digits = [] then none
  else some (digits.foldl (fun a c => a * 10 + (c.toNat - 48)) 0, l.dropWhile isDigitChar)

/-- Parse a JSON string literal out of `"…"` (no escape sequences: the
stored keys are hex hashes, which need none). -/
def parseKeyPart (l : List Char) : Option (String × List Char) :=
  match l with
  | '"' :: rest =>
      let body := rest.takeWhile (fun c => c ≠ '"')
      match rest.dropWhile (fun c => c ≠ '"') with
      | '"' :: rest' => some (⟨body⟩, rest')
      | _ => none
  | _ => none

/-- Expect a literal prefix. -/
def expectLit (lit : List Char) (l : List Char) : Option (List Char) :=
  if lit.isPrefixOf l then some (l.drop lit.length) else none

/-- Parse one `"key":{"count":n,"resetTime":m}` binding. -/
def parseBinding (l : List Char) : Option ((String × RateLimitData) × List Char) := do
  let (key, r1) ← parseKeyPart l
  let r2 ← expectLit ":\x7b\"count\":".data r1
  let (n, r3) ← parseNatPart r2
  let r4 ← expectLit ",\"resetTime\":".data r3
  let (m, r5) ← parseNatPart r4
  let r6 ← expectLit "\x7d".data r5
  some ((key, ⟨n, m⟩), r6)

/-- Parse `,`-separated bindings up to the closing `}` that must end the
input (fuel-indexed; the fuel is the input length). -/
def parseBindings : Nat → List Char → Option Store
  | 0, _ => none
  | fuel + 1, l => do
      let (b, rest) ← parseBinding l
      match rest with
      | ['}'] => some [b]
      | ',' :: rest' => do
          let s ← parseBindings fuel rest'
          some (b :: s)
      | _ => none

/-- `JSON.parse` specialised to the `RateLimitStore` serialisation format
written by `save` (`JSON.stringify(store)`, no whitespace).  Returns
`none` exactly where `JSON.parse` would throw on such inputs. -/
def jsonParseStore (s : String) : Option Store :=
  match s.data with
  | '{' :: '}' :: [] => some []
  | '{' :: rest => parseBindings rest.length rest
  | _ => none

/-- In `load`, `readFile` is imported from `node:fs/promises` and called
WITHOUT `await`, so the local `data` is a pending `Promise`, not the file
contents; `data.toString()` therefore yields the string below whatever the
file holds. -/
def promiseToString : String := "[object Promise]"

/-- `RateLimiter.load()` (rate-limiter source, lines 39–52), as the
constructor runs it: if the db file exists, `JSON.parse(data.toString())`
is attempted where `data` is the un-awaited `readFile` promise; on any
parse failure the catch block sets `this.store = {}`. -/
def load (fileExists : Bool) (_fileContents : String) : Store :=
  if fileExists then
    match jsonParseStore promiseToString with
    | some s => s
    | none => []
  else []

/-- Decidable equality of `Except` results, for evaluating `sanitize` on
concrete inputs. -/
instance {ε α : Type} [DecidableEq ε] [DecidableEq α] :
    DecidableEq (Except ε α) := fun x y =>
  match x, y with
  | .ok a, .ok b => decidable_of_iff (a = b) (by simp)
  | .error a, .error b => decidable_of_iff (a = b) (by simp)
  | .ok _, .error _ => isFalse (by simp)
  | .error _, .ok _ => isFalse (by simp)

/-! ## Model of the WHATWG `URL` platform primitive

`validate`, `extractContentId` and `sanitize` all rely on `new URL(...)`
and `URLSearchParams`.  The functions below model the WHATWG parse on the
fragment of behaviour the source exercises: scheme recognition, the
special-scheme authority (host lowercased, userinfo stripped, empty host
rejected), path/query/fragment splitting, percent-encoding of the path
encode set, and the `application/x-www-form-urlencoded` treatment of
query parameters.  Non-ASCII percent-coding (UTF-8 byte expansion), port
elision and IDNA are not modelled; no claim depends on them. -/

/-- The record behind a parsed `URL` object, holding exactly the
properties the source reads: `protocol` (as `scheme ++ ":"`), `host`,
`pathname` and the raw query (`search` without the `?`). -/
structure URLRec where
  scheme : List Char
  host : List Char
  pathname : List Char
  search : List Char
  deriving DecidableEq, Repr

/-- WHATWG special schemes (the ones parsed with an authority). -/
def isSpecialScheme (s : List Char) : Bool :=
  s = "http".data || s = "https".data || s = "ws".data || s = "wss".data ||
  s = "ftp".data || s = "file".data

/-- Characters allowed in a scheme after its leading letter. -/
def isSchemeChar (c : Char) : Bool :=
  isAlphanumChar c || c = '+' || c = '-' || c = '.'

/-- `takeWhile`/`dropWhile` up to the first character satisfying `p`. -/
def spanUntil (p : Char → Bool) (l : List Char) : List Char × List Char :=
  (l.takeWhile (fun c => !p c), l.dropWhile (fun c => !p c))

/-- Uppercase hex digit of `n < 16`. -/
def toHexDigit (n : Nat) : Char :=
  if n < 10 then Char.ofNat (48 + n) else Char.ofNat (55 + n)

/-- `%XX` percent-encoding of a byte value. -/
def percentByte (n : Nat) : List Char :=
  ['%', toHexDigit (n / 16), toHexDigit (n % 16)]

/-- The WHATWG path percent-encode set (C0 controls, space, `"`, `<`,
`>`, `` ` ``, `{`, `}`, DEL). -/
def inPathEncodeSet (c : Char) : Bool :=
  c.toNat ≤ 0x20 || c = '"' || c = '<' || c = '>' || c = '`' ||
  c = '{' || c = '}' || c.toNat = 0x7f

/-- Percent-encode one path character. -/
def encodePathChar (c : Char) : List Char :=
  if inPathEncodeSet c then percentByte c.toNat else [c]

/-- Percent-encode a path. -/
def encodePath (l : List Char) : List Char :=
  (l.map encodePathChar).flatten

/-- Opaque paths (non-special schemes) only encode C0 controls and DEL. -/
def encodeOpaqueChar (c : Char) : List Char :=
  if c.toNat < 0x20 || c.toNat = 0x7f then percentByte c.toNat else [c]

/-- Percent-encode an opaque path. -/
def encodeOpaque (l : List Char) : List Char :=
  (l.map encodeOpaqueChar).flatten

/-- Strip the userinfo of an authority: the suffix after the last `@`. -/
def afterLastAt (l : List Char) : List Char :=
  (l.reverse.takeWhile (fun c => c ≠ '@')).reverse

/-- Host code points the model rejects (parse failure), following the
WHATWG forbidden host code points that can reach this position. -/
def forbiddenHostChar (c : Char) : Bool :=
  c.toNat ≤ 0x20 || c = '"' || c = '<' || c = '>' || c = '^' || c = '`' ||
  c = '{' || c = '}' || c = '|' || c = '\\' || c.toNat = 0x7f

/-- Input preparation of the URL parser: strip leading/trailing C0
controls and space, remove all ASCII tab/newline characters. -/
def prepInput (l : List Char) : List Char :=
  (((l.dropWhile (fun c => c.toNat ≤ 0x20)).reverse.dropWhile
      (fun c => c.toNat ≤ 0x20)).reverse).filter
    (fun c => c ≠ '\t' && c ≠ '\n' && c ≠ '\r')

/-- Extract the query from the remainder that follows the path (either
empty, or starting with `?` or `#`); the fragment is dropped. -/
def parseQueryPart : List Char → List Char
  | '?' :: rest => (spanUntil (fun c => c = '#') rest).1
  | _ => []

/-- The authority step of a special-scheme parse: skip the authority
slashes, then split at the next `/`, `\`, `?` or `#`; the first
component is the raw authority, the second the path-and-beyond. -/
def specialAuth (l : List Char) : List Char × List Char :=
  spanUntil (fun c => c = '/' || c = '\\' || c = '?' || c = '#')
    (l.dropWhile (fun c => c = '/' || c = '\\'))

/-- The path step of a special-scheme parse: split off the raw path
(up to `?` or `#`), normalize `\` to `/`, percent-encode, and default an
empty path to `/`. -/
def specialPath (rest : List Char) : List Char × List Char :=
  let s := spanUntil (fun c => c = '?' || c = '#') rest
  (if s.1 = [] then ['/']
   else encodePath (s.1.map (fun c => if c = '\\' then '/' else c)), s.2)

/-- Parse the part after `scheme:` for a special scheme: skip the
authority slashes, read the host up to the next separator (lowercased,
userinfo stripped, empty or forbidden hosts rejected), then the path and
query. -/
def parseSpecialRest (scheme : List Char) (l : List Char) : Option URLRec :=
  let host := lowerL (afterLastAt (specialAuth l).1)
  if host = [] || host.any forbiddenHostChar then none
  else
    some ⟨scheme, host, (specialPath (specialAuth l).2).1,
      parseQueryPart (specialPath (specialAuth l).2).2⟩

/-- Parse the part after `scheme:` for a non-special scheme: `//` starts
an authority (possibly with an empty host), anything else is an opaque
path. -/
def parseNonSpecialRest (scheme : List Char) (l : List Char) : Option URLRec :=
  match l with
  | '/' :: '/' :: rest =>
      if (afterLastAt
          (spanUntil (fun c => c = '/' || c = '?' || c = '#') rest).1).any
          forbiddenHostChar then none
      else
        some ⟨scheme,
          afterLastAt
            (spanUntil (fun c => c = '/' || c = '?' || c = '#') rest).1,
          encodeOpaque (spanUntil (fun c => c = '?' || c = '#')
            (spanUntil (fun c => c = '/' || c = '?' || c = '#') rest).2).1,
          parseQueryPart (spanUntil (fun c => c = '?' || c = '#')
            (spanUntil (fun c => c = '/' || c = '?' || c = '#') rest).2).2⟩
  | _ =>
      some ⟨scheme, [],
        encodeOpaque (spanUntil (fun c => c = '?' || c = '#') l).1,
        parseQueryPart (spanUntil (fun c => c = '?' || c = '#') l).2⟩

/-- The model of `new URL(input)` (no base URL): `none` where the real
constructor throws. -/
def parseURLChars (input : List Char) : Option URLRec :=
  match prepInput input with
  | [] => none
  | c :: rest =>
      if isAlphaChar c then
        match (spanUntil (fun c => !isSchemeChar c) rest).2 with
        | ':' :: rest2 =>
            if isSpecialScheme
                (lowerL (c :: (spanUntil (fun c => !isSchemeChar c) rest).1))
            then parseSpecialRest
              (lowerL (c :: (spanUntil (fun c => !isSchemeChar c) rest).1))
              rest2
            else parseNonSpecialRest
              (lowerL (c :: (spanUntil (fun c => !isSchemeChar c) rest).1))
              rest2
        | _ => none
      else none

/-! ## `URLSearchParams`: parse and serialize -/

/-- Hex digit value, both cases (percent-decoding). -/
def hexVal? (c : Char) : Option Nat :=
  if isDigitChar c then some (c.toNat - 48)
  else if 65 ≤ c.toNat && c.toNat ≤ 70 then some (c.toNat - 55)
  else if 97 ≤ c.toNat && c.toNat ≤ 102 then some (c.toNat - 87)
  else none

/-- `application/x-www-form-urlencoded` decoding: `+` becomes space, a
valid `%XX` becomes its byte, anything else is kept. -/
def formDecode : List Char → List Char
  | [] => []
  | '%' :: h1 :: h2 :: rest =>
      match hexVal? h1, hexVal? h2 with
      | some a, some b => Char.ofNat (16 * a + b) :: formDecode rest
      | _, _ => '%' :: formDecode (h1 :: h2 :: rest)
  | '+' :: rest => ' ' :: formDecode rest
  | c :: rest => c :: formDecode rest

/-- Characters serialized verbatim by `URLSearchParams.toString`. -/
def isFormSafe (c : Char) : Bool :=
  isAlphanumChar c || c = '*' || c = '-' || c = '.' || c = '_'

/-- Form-encode one character (space as `+`; non-ASCII kept verbatim in
this model instead of being expanded to UTF-8 bytes). -/
def formEncodeChar (c : Char) : List Char :=
  if isFormSafe c then [c]
  else if c = ' ' then ['+']
  else if c.toNat < 128 then percentByte c.toNat
  else [c]

/-- Form-encode a string. -/
def formEncode (l : List Char) : List Char :=
  (l.map formEncodeChar).flatten

/-- Split a query on `&` (the accumulator holds the current segment,
reversed). -/
def splitAmpAux : List Char → List Char → List (List Char)
  | [], acc => [acc.reverse]
  | c :: rest, acc =>
      if c = '&' then acc.reverse :: splitAmpAux rest []
      else splitAmpAux rest (c :: acc)

/-- Split a query string on `&`. -/
def splitAmp (l : List Char) : List (List Char) :=
  splitAmpAux l []

/-- Split one `k=v` segment at the first `=` (no `=` gives an empty
value). -/
def splitEq (seg : List Char) : List Char × List Char :=
  ((spanUntil (fun c => c = '=') seg).1,
   match (spanUntil (fun c => c = '=') seg).2 with
   | _ :: v => v
   | [] => [])

/-- `urlObj.searchParams.entries()`: split on `&`, skip empty segments,
split each at the first `=`, form-decode names and values, preserving
order. -/
def parseParams (q : List Char) : List (List Char × List Char) :=
  ((splitAmp q).filter (fun s => s ≠ [])).map
    (fun seg => (formDecode (splitEq seg).1, formDecode (splitEq seg).2))

/-- Serialize one pair as `name=value`, form-encoded. -/
def serializePair (kv : List Char × List Char) : List Char :=
  formEncode kv.1 ++ '=' :: formEncode kv.2

/-- `URLSearchParams.toString()`: pairs joined with `&`. -/
def serializeParams : List (List Char × List Char) → List Char
  | [] => []
  | [kv] => serializePair kv
  | kv :: rest => serializePair kv ++ '&' :: serializeParams rest

/-! ## `sanitize` (`src/lib/validation.ts`, lines 110–196) -/

/-- The fixed protocol denylist. -/
def dangerousProtocols : List String :=
  ["javascript:", "data:", "vbscript:", "file:", "ftp:"]

/-- `lowerUrl.startsWith(protocol)` over the denylist. -/
def startsWithDangerous (lower : List Char) : Bool :=
  dangerousProtocols.any (fun p => p.data.isPrefixOf lower)

/-- The XSS marker regexes, in source order; each is case-insensitive, so
is tested against the lowercased string.  `/.fromCharCode/i`,
`/.innerHTML/i` and `/.outerHTML/i` begin with an unescaped `.` that
consumes one arbitrary character, hence the position-`≥ 1` test. -/
def hasXSS (t : List Char) : Bool :=
  let l := lowerL t
  containsSub l "<script".data || containsSub l "<iframe".data ||
  containsSub l "<embed".data || containsSub l "<object".data ||
  containsSub l "onload=".data || containsSub l "onerror=".data ||
  containsSub l "onclick=".data || containsSub l "onmouseover=".data ||
  containsSub l "javascript:".data ||
  containsSubAt1 l "fromcharcode".data || containsSubAt1 l "innerhtml".data ||
  containsSubAt1 l "outerhtml".data ||
  containsSub l "eval(".data || containsSub l "expression(".data

/-- The fixed query-parameter denylist. -/
def dangerousParams : List String :=
  ["callback", "jsonp", "redirect", "return", "next", "url", "dest",
   "destination", "redirect_uri", "redirect_url", "return_to", "load",
   "src", "eval", "exec", "cmd", "command"]

/-- `dangerousParams.includes(key.toLowerCase())`. -/
def isDangerousParam (k : List Char) : Bool :=
  dangerousParams.any (fun d => d.data = lowerL k)

/-- Keep only the query parameters whose key is not denylisted. -/
def filterParams (l : List (List Char × List Char)) :
    List (List Char × List Char) :=
  l.filter (fun kv => !isDangerousParam kv.1)

/-- `` `${urlObj.protocol}//${urlObj.host}${urlObj.pathname}` `` plus the
query when non-empty. -/
def buildSafeURL (r : URLRec) (qs : List Char) : List Char :=
  r.scheme ++ (':' :: '/' :: '/' ::
    (r.host ++ (r.pathname ++ (if qs = [] then [] else '?' :: qs))))

/-- The body of `sanitize`'s `try` block: each `throw` becomes an
`Except.error` carrying the thrown message. -/
def sanitizeBody (url : String) : Except String String :=
  let t := jsTrim url.data
  if startsWithDangerous (lowerL t) then .error "Dangerous protocol detected"
  else if hasXSS t then .error "XSS pattern detected"
  else
    match parseURLChars t with
    | none => .error "Invalid URL format"
    | some r =>
        let safe := filterParams (parseParams r.search)
        .ok ⟨buildSafeURL r (serializeParams safe)⟩

/-- `sanitize(url)` with the `catch` block of lines 187–195: an error
whose message contains "Dangerous" or "XSS" is re-thrown unchanged, any
other error is replaced by `Error("Invalid URL format")`. -/
def sanitize (url : String) : Except String String :=
  match sanitizeBody url with
  | .ok v => .ok v
  | .error e =>
      if containsSub e.data "Dangerous".data || containsSub e.data "XSS".data
      then .error e
      else .error "Invalid URL format"

/-! ## Platform detection and validation (`validate`, `detectPlatform`,
`extractContentId`) -/

/-- `type SupportedPlatform = "instagram" | "twitter" | "tiktok"`. -/
inductive SupportedPlatform where
  | instagram
  | twitter
  | tiktok
  deriving DecidableEq, Repr

/-- The string value of a platform tag. -/
def platformName : SupportedPlatform → String
  | .instagram => "instagram"
  | .twitter => "twitter"
  | .tiktok => "tiktok"

/-- `detectPlatform(url)`: the URL is lowercased and trimmed, then tested
against the `URL_PATTERNS` domain regexes in table order
(`/instagram\.com/i`, `/(?:x\.com|twitter\.com)/i`, `/tiktok\.com/i`),
each a substring test over the whole string; and afterwards the explicit
`x.com` containment special case (unreachable, kept for fidelity). -/
def detectPlatform (url : String) : Option SupportedPlatform :=
  let n := jsTrim (lowerL url.data)
  if containsSub n "instagram.com".data then some .instagram
  else if containsSub n "x.com".data || containsSub n "twitter.com".data then
    some .twitter
  else if containsSub n "tiktok.com".data then some .tiktok
  else if containsSub n "x.com".data then some .twitter
  else none

/-- Identifier characters of the capture groups `([A-Za-z0-9_-]+)`. -/
def isIdChar (c : Char) : Bool :=
  isAlphanumChar c || c = '_' || c = '-'

/-- Match `marker` followed by a non-empty greedy run of `idc` characters
at the head of `l`, returning the captured run. -/
def captureAt (marker : List Char) (idc : Char → Bool) (l : List Char) :
    Option (List Char) :=
  if marker.isPrefixOf l then
    let run := (l.drop marker.length).takeWhile idc
    if run = [] then none else some run
  else none

/-- Leftmost match of `marker ++ (idc)+` anywhere in `l` (the semantics
of `pathname.match(/marker(idc+)/)` with `match[1]`). -/
def firstCapture (marker : List Char) (idc : Char → Bool) :
    List Char → Option (List Char)
  | [] => none
  | h :: t =>
      match captureAt marker idc (h :: t) with
      | some r => some r
      | none => firstCapture marker idc t

/-- Leftmost match of the second TikTok pattern
`/\/@[^/]+\/video\/(\d+)/`: `/@`, a non-empty run without `/`, then
`/video/` and the captured digits. -/
def captureTiktokAt (l : List Char) : Option (List Char) :=
  match l with
  | '/' :: '@' :: rest =>
      let user := rest.takeWhile (fun c => c ≠ '/')
      if user = [] then none
      else captureAt "/video/".data isDigitChar (rest.drop user.length)
  | _ => none

/-- Scan for the leftmost match of the second TikTok pattern. -/
def tiktokAtPattern : List Char → Option (List Char)
  | [] => none
  | h :: t =>
      match captureTiktokAt (h :: t) with
      | some r => some r
      | none => tiktokAtPattern t

/-- The ordered `patterns` table of `URL_PATTERNS[platform]`, applied to a
pathname: the first pattern that matches wins. -/
def matchPatterns (p : SupportedPlatform) (path : List Char) :
    Option (List Char) :=
  match p with
  | .instagram =>
      match firstCapture "/reel/".data isIdChar path with
      | some r => some r
      | none =>
          match firstCapture "/p/".data isIdChar path with
          | some r => some r
          | none => firstCapture "/tv/".data isIdChar path
  | .twitter => firstCapture "/status/".data isDigitChar path
  | .tiktok =>
      match firstCapture "/video/".data isDigitChar path with
      | some r => some r
      | none => tiktokAtPattern path

/-- `extractContentId(url, platform)` (validation source, lines 83–102):
parse the URL (`none` on failure, the `catch`), then try the platform's
patterns in order against `urlObj.pathname`. -/
def extractContentId (url : String) (p : SupportedPlatform) : Option String :=
  match parseURLChars url.data with
  | none => none
  | some r => (matchPatterns p r.pathname).map (fun l => ⟨l⟩)

/-- `interface ValidationSchema` from `types/download`. -/
structure ValidationSchema where
  isValid : Bool
  errors : List String
  platform : Option SupportedPlatform
  contentId : Option String
  deriving DecidableEq, Repr

/-- The "Unsupported platform" message of `validate`. -/
def unsupportedMsg : String :=
  "Unsupported platform. Please use Instagram, X (Twitter), or TikTok URL"

/-- The protocol error message of `validate`. -/
def protocolMsg : String := "URL must use HTTP or HTTPS protocol"

/-- `validate(url)` (validation source, lines 11–58): empty-input guard,
URL-format guard, non-short-circuiting protocol check, gated platform
detection and content-ID extraction. -/
def validate (url : String) : ValidationSchema :=
  if url = "" then ⟨false, ["URL is required"], none, none⟩
  else
    let t : String := ⟨jsTrim url.data⟩
    match parseURLChars t.data with
    | none => ⟨false, ["Invalid URL format"], none, none⟩
    | some r =>
        let errors :=
          if r.scheme = "http".data || r.scheme = "https".data then []
          else [protocolMsg]
        match detectPlatform t with
        | none => ⟨false, errors ++ [unsupportedMsg], none, none⟩
        | some p =>
            match extractContentId t p with
            | none =>
                ⟨false,
                 errors ++
                   ["Could not extract content ID from " ++ platformName p ++
                     " URL"],
                 some p, none⟩
            | some cid => ⟨errors.isEmpty, errors, some p, some cid⟩


/-! ## Character-level lemmas -/

/-- Two characters are equal iff their code points are. -/
theorem char_eq_iff_toNat {a b : Char} : a = b ↔ a.toNat = b.toNat := by
  constructor
  · intro h; rw [h]
  · intro h
    have h2 := congrArg Char.ofNat h
    rwa [Char.ofNat_toNat, Char.ofNat_toNat] at h2

/-- `Char.ofNat` inverts `toNat` on valid code points. -/
theorem toNat_ofNat_valid (n : Nat) (h : n.isValidChar) :
    (Char.ofNat n).toNat = n := by
  rw [Char.ofNat, dif_pos h]
  rfl

/-- The code point of `lowerChar`. -/
theorem lowerChar_toNat (c : Char) :
    (lowerChar c).toNat =
      if 65 ≤ c.toNat ∧ c.toNat ≤ 90 then c.toNat + 32 else c.toNat := by
  show (Char.toLower c).toNat = _
  show (if c.toNat ≥ 65 ∧ c.toNat ≤ 90 then Char.ofNat (c.toNat + 32) else c).toNat = _
  by_cases h : 65 ≤ c.toNat ∧ c.toNat ≤ 90
  · rw [if_pos h, if_pos h]
    exact toNat_ofNat_valid _ (Or.inl (by omega))
  · rw [if_neg h, if_neg h]

/-- ASCII lowercasing is idempotent. -/
theorem lowerChar_idem (c : Char) : lowerChar (lowerChar c) = lowerChar c := by
  rw [char_eq_iff_toNat, lowerChar_toNat (lowerChar c), lowerChar_toNat c]
  by_cases h : 65 ≤ c.toNat ∧ c.toNat ≤ 90
  · simp only [if_pos h]
    rw [if_neg (by omega)]
  · simp only [if_neg h]

/-- Lowercasing a list twice is lowercasing it once. -/
theorem lowerL_idem (l : List Char) : lowerL (lowerL l) = lowerL l := by
  unfold lowerL
  rw [List.map_map]
  exact List.map_congr_left (fun c _ => lowerChar_idem c)

/-- `lowerChar` cannot produce a character outside `[a-z]` that the input
was not already. -/
theorem lowerChar_ne (c d : Char) (hd : d.toNat < 97 ∨ 122 < d.toNat)
    (h : c ≠ d) : lowerChar c ≠ d := by
  intro he
  rw [char_eq_iff_toNat, lowerChar_toNat] at he
  by_cases hc : 65 ≤ c.toNat ∧ c.toNat ≤ 90
  · rw [if_pos hc] at he; omega
  · rw [if_neg hc] at he; exact h (char_eq_iff_toNat.mpr he)

/-- `lowerChar` preserves being above the control/space range. -/
theorem lowerChar_gt32 (c : Char) (h : 32 < c.toNat) :
    32 < (lowerChar c).toNat := by
  rw [lowerChar_toNat]
  by_cases hc : 65 ≤ c.toNat ∧ c.toNat ≤ 90
  · rw [if_pos hc]; omega
  · rw [if_neg hc]; omega

/-- Characters above the control/space range are not JS whitespace. -/
theorem not_ws_of_gt32 (c : Char) (h : 32 < c.toNat) :
    Char.isWhitespace c = false := by
  have h1 : c ≠ ' ' := fun e => by rw [e] at h; exact absurd h (by decide)
  have h2 : c ≠ '\t' := fun e => by rw [e] at h; exact absurd h (by decide)
  have h3 : c ≠ '\r' := fun e => by rw [e] at h; exact absurd h (by decide)
  have h4 : c ≠ '\n' := fun e => by rw [e] at h; exact absurd h (by decide)
  simp [Char.isWhitespace, h1, h2, h3, h4]


/-! ## List-level lemmas -/

/-- `spanUntil` splits exactly at the first character satisfying `p`. -/
theorem spanUntil_append (p : Char → Bool) (l₁ : List Char) (x : Char)
    (l₂ : List Char) (h : ∀ c ∈ l₁, p c = false) (hx : p x = true) :
    spanUntil p (l₁ ++ x :: l₂) = (l₁, x :: l₂) := by
  unfold spanUntil
  rw [List.takeWhile_append_of_pos (by intro a ha; simp [h a ha]),
      List.dropWhile_append_of_pos (by intro a ha; simp [h a ha]),
      List.takeWhile_cons_of_neg (by simp [hx]),
      List.dropWhile_cons_of_neg (by simp [hx])]
  simp

/-- `spanUntil` takes the whole list when no character satisfies `p`. -/
theorem spanUntil_all (p : Char → Bool) (l : List Char)
    (h : ∀ c ∈ l, p c = false) : spanUntil p l = (l, []) := by
  unfold spanUntil
  rw [List.takeWhile_eq_self_iff.mpr (by intro a ha; simp [h a ha]),
      List.dropWhile_eq_nil_iff.mpr (by intro a ha; simp [h a ha])]

/-- `dropWhile` is the identity when the predicate holds nowhere. -/
theorem dropWhile_eq_self_of_all (p : Char → Bool) (l : List Char)
    (h : ∀ c ∈ l, p c = false) : l.dropWhile p = l := by
  cases l with
  | nil => rfl
  | cons a t =>
      exact List.dropWhile_cons_of_neg (by simp [h a (List.mem_cons_self a t)])

/-- Trimming does not change a list whose characters all sit above the
control/space range. -/
theorem jsTrim_eq_self (l : List Char) (h : ∀ c ∈ l, 32 < c.toNat) :
    jsTrim l = l := by
  unfold jsTrim
  rw [dropWhile_eq_self_of_all _ _ (fun c hc => not_ws_of_gt32 c (h c hc)),
      dropWhile_eq_self_of_all _ _
        (fun c hc => not_ws_of_gt32 c (h c (List.mem_reverse.mp hc))),
      List.reverse_reverse]

/-- The URL parser's input preparation does not change a list whose
characters all sit above the control/space range. -/
theorem prepInput_eq_self (l : List Char) (h : ∀ c ∈ l, 32 < c.toNat) :
    prepInput l = l := by
  unfold prepInput
  have hp : ∀ c ∈ l, (decide (c.toNat ≤ 32)) = false := fun c hc => by
    have := h c hc; simp; omega
  have hp2 : ∀ c ∈ l.reverse, (decide (c.toNat ≤ 32)) = false := fun c hc =>
    hp c (List.mem_reverse.mp hc)
  rw [dropWhile_eq_self_of_all _ l hp, dropWhile_eq_self_of_all _ l.reverse hp2,
      List.reverse_reverse]
  refine List.filter_eq_self.mpr (fun c hc => ?_)
  have h32 := h c hc
  have t1 : c ≠ '\t' := fun e => by rw [e] at h32; exact absurd h32 (by decide)
  have t2 : c ≠ '\n' := fun e => by rw [e] at h32; exact absurd h32 (by decide)
  have t3 : c ≠ '\r' := fun e => by rw [e] at h32; exact absurd h32 (by decide)
  simp [t1, t2, t3]

/-- Unfolding `containsSub` on a cons cell. -/
theorem containsSub_cons (a : Char) (t n : List Char) :
    containsSub (a :: t) n = (n.isPrefixOf (a :: t) || containsSub t n) := by
  rw [containsSub]
  by_cases h : n.isPrefixOf (a :: t) <;> simp [h]

/-- Unfolding `containsSub` on the empty list. -/
theorem containsSub_nil (n : List Char) :
    containsSub [] n = n.isPrefixOf [] := by
  rw [containsSub]
  by_cases h : n.isPrefixOf ([] : List Char) <;> simp [h]

/-- `containsSub` is exactly substring containment. -/
theorem containsSub_iff (hay n : List Char) :
    containsSub hay n = true ↔ ∃ l₁ l₂, hay = l₁ ++ n ++ l₂ := by
  induction hay with
  | nil =>
      rw [containsSub_nil, List.isPrefixOf_iff_prefix]
      constructor
      · intro h
        exact ⟨[], [], by simp [List.prefix_nil.mp h]⟩
      · rintro ⟨l₁, l₂, he⟩
        have h0 : (l₁ ++ n) ++ l₂ = [] := he.symm
        have h1 : n = [] := (List.append_eq_nil.mp (List.append_eq_nil.mp h0).1).2
        simp [h1]
  | cons a t ih =>
      rw [containsSub_cons]
      constructor
      · intro h
        rcases (by simpa using h :
            n.isPrefixOf (a :: t) = true ∨ containsSub t n = true) with h | h
        · rcases List.isPrefixOf_iff_prefix.mp h with ⟨post, hp⟩
          exact ⟨[], post, by simp [hp.symm]⟩
        · rcases ih.mp h with ⟨l₁, l₂, he⟩
          exact ⟨a :: l₁, l₂, by simp [he]⟩
      · rintro ⟨l₁, l₂, he⟩
        cases l₁ with
        | nil =>
            simp only [Bool.or_eq_true]
            exact Or.inl
              (List.isPrefixOf_iff_prefix.mpr ⟨l₂, by simpa using he.symm⟩)
        | cons b l₁' =>
            simp only [Bool.or_eq_true]
            refine Or.inr (ih.mpr ⟨l₁', l₂, ?_⟩)
            rw [List.cons_append, List.cons_append, List.cons.injEq] at he
            exact he.2

/-- Containment is monotone along the infix order. -/
theorem containsSub_within {hay hay' n : List Char}
    (hinf : hay' <:+: hay) (h : containsSub hay' n = true) :
    containsSub hay n = true := by
  rcases (containsSub_iff hay' n).mp h with ⟨l₁, l₂, rfl⟩
  rcases hinf with ⟨s, t, rfl⟩
  exact (containsSub_iff _ n).mpr ⟨s ++ l₁, l₂ ++ t, by simp⟩

/-- Trimming yields an infix. -/
theorem jsTrim_within (l : List Char) : jsTrim l <:+: l := by
  unfold jsTrim
  have h1 : l.dropWhile Char.isWhitespace <:+ l := List.dropWhile_suffix _
  have h2 := List.dropWhile_suffix (l := (l.dropWhile Char.isWhitespace).reverse)
    Char.isWhitespace
  have h3 := List.reverse_prefix.mpr h2
  rw [List.reverse_reverse] at h3
  exact h3.isInfix.trans h1.isInfix

/-- Lowercasing preserves the infix order. -/
theorem lowerL_within {l₁ l₂ : List Char} (h : l₁ <:+: l₂) :
    lowerL l₁ <:+: lowerL l₂ := by
  rcases h with ⟨s, t, rfl⟩
  exact ⟨lowerL s, lowerL t, by simp [lowerL]⟩

/-! ## Store lemmas -/

/-- Reading the key just written. -/
theorem Store.find?_set_self (s : Store) (c : String) (d : RateLimitData) :
    (s.set c d).find? c = some d := by
  induction s with
  | nil => simp [Store.set, Store.find?]
  | cons p t ih =>
      by_cases h : p.1 = c
      · simp [Store.set, Store.find?, h]
      · simp [Store.set, Store.find?, h, ih]

/-- Writing one key does not affect another. -/
theorem Store.find?_set_ne (s : Store) (c c' : String) (d : RateLimitData)
    (h : c' ≠ c) : (s.set c d).find? c' = s.find? c' := by
  induction s with
  | nil => simp [Store.set, Store.find?, Ne.symm h]
  | cons p t ih =>
      by_cases hp : p.1 = c
      · simp [Store.set, Store.find?, hp, Ne.symm h]
      · by_cases hp' : p.1 = c'
        · simp [Store.set, Store.find?, hp, hp', h, Ne.symm h]
        · simp [Store.set, Store.find?, hp, hp', ih]

/-- Reading a deleted key. -/
theorem Store.find?_erase_self (s : Store) (c : String) :
    (s.erase c).find? c = none := by
  induction s with
  | nil => rfl
  | cons p t ih =>
      by_cases h : p.1 = c
      · simpa [Store.erase, Store.find?, h] using ih
      · simpa [Store.erase, Store.find?, h] using ih

/-- Deleting one key does not affect another. -/
theorem Store.find?_erase_ne (s : Store) (c c' : String) (h : c' ≠ c) :
    (s.erase c).find? c' = s.find? c' := by
  induction s with
  | nil => rfl
  | cons p t ih =>
      by_cases hp : p.1 = c
      · have hp' : p.1 ≠ c' := fun e => h (e.symm.trans hp)
        simpa [Store.erase, Store.find?, hp, hp', Ne.symm h] using ih
      · by_cases hp' : p.1 = c'
        · simp [Store.erase, Store.find?, hp, hp', h, Ne.symm h]
        · simpa [Store.erase, Store.find?, hp, hp'] using ih

/-! ## `check` and `checkFallback` step lemmas -/

/-- `check` on a client with no entry: admit and initialize. -/
theorem check_absent (w m : Nat) (s : Store) (c : String) (t : Nat)
    (hs : s.find? c = none) :
    check w m s c t = (⟨true, none⟩, s.set c ⟨1, t + w⟩) := by
  simp [check, hs]

/-- `check` on an active entry below the limit: admit and increment. -/
theorem check_under (w m : Nat) (s : Store) (c : String) (t : Nat)
    (k rt : Nat) (hs : s.find? c = some ⟨k, rt⟩) (hrt : t < rt) (hk : k < m) :
    check w m s c t = (⟨true, none⟩, s.set c ⟨k + 1, rt⟩) := by
  simp [check, hs, Nat.not_le.mpr hrt, Nat.not_le.mpr hk]

/-- `check` on an active entry at or over the limit: deny, touch nothing. -/
theorem check_at_limit (w m : Nat) (s : Store) (c : String) (t : Nat)
    (k rt : Nat) (hs : s.find? c = some ⟨k, rt⟩) (hrt : t < rt) (hk : m ≤ k) :
    check w m s c t = (⟨false, some rt⟩, s) := by
  simp [check, hs, Nat.not_le.mpr hrt, hk]

/-- `check` on an expired entry: delete it, admit, re-initialize. -/
theorem check_expired (w m : Nat) (s : Store) (c : String) (t : Nat)
    (k rt : Nat) (hs : s.find? c = some ⟨k, rt⟩) (hrt : rt ≤ t) :
    check w m s c t = (⟨true, none⟩, (s.erase c).set c ⟨1, t + w⟩) := by
  simp [check, hs, hrt, Store.find?_erase_self]

/-- `checkFallback` on a client with no entry. -/
theorem fallback_absent (w m : Nat) (s : Store) (c : String) (t : Nat)
    (hs : s.find? c = none) :
    checkFallback w m s c t = (⟨true, none⟩, s.set c ⟨1, t + w⟩) := by
  simp [checkFallback, hs]

/-- `checkFallback` on an entry whose reset time lies strictly in the
past: overwrite with a fresh window. -/
theorem fallback_expired (w m : Nat) (s : Store) (c : String) (t : Nat)
    (k rt : Nat) (hs : s.find? c = some ⟨k, rt⟩) (hrt : rt < t) :
    checkFallback w m s c t = (⟨true, none⟩, s.set c ⟨1, t + w⟩) := by
  simp [checkFallback, hs, hrt]

/-- `checkFallback` at or over the limit, entry not yet strictly expired. -/
theorem fallback_at_limit (w m : Nat) (s : Store) (c : String) (t : Nat)
    (k rt : Nat) (hs : s.find? c = some ⟨k, rt⟩) (hrt : t ≤ rt) (hk : m ≤ k) :
    checkFallback w m s c t = (⟨false, some rt⟩, s) := by
  simp [checkFallback, hs, Nat.not_lt.mpr hrt, hk]

/-- `checkFallback` below the limit, entry not yet strictly expired. -/
theorem fallback_under (w m : Nat) (s : Store) (c : String) (t : Nat)
    (k rt : Nat) (hs : s.find? c = some ⟨k, rt⟩) (hrt : t ≤ rt) (hk : k < m) :
    checkFallback w m s c t = (⟨true, none⟩, s.set c ⟨k + 1, rt⟩) := by
  simp [checkFallback, hs, Nat.not_lt.mpr hrt, Nat.not_le.mpr hk]

/-! ## Iterated `check` lemmas -/

/-- Below the limit, every call inside the window is allowed and the
count advances by one per call while `resetTime` stays fixed. -/
theorem checkSeq_under (w m : Nat) (c : String) (t0 : Nat) :
    ∀ (ts : List Nat) (s : Store) (k : Nat),
      s.find? c = some ⟨k, t0 + w⟩ → k + ts.length ≤ m →
      (∀ t ∈ ts, t < t0 + w) →
      (checkSeq w m c s ts).1 = List.replicate ts.length true ∧
      (checkSeq w m c s ts).2.find? c = some ⟨k + ts.length, t0 + w⟩ := by
  intro ts
  induction ts with
  | nil =>
      intro s k hs _ _
      exact ⟨rfl, by simpa using hs⟩
  | cons t ts ih =>
      intro s k hs hlen hts
      have hk : k < m := by simp at hlen; omega
      have ht : t < t0 + w := hts t (List.mem_cons_self _ _)
      have hstep := check_under w m s c t k (t0 + w) hs ht hk
      have ihres := ih (s.set c ⟨k + 1, t0 + w⟩) (k + 1)
        (Store.find?_set_self s c ⟨k + 1, t0 + w⟩)
        (by simp at hlen ⊢; omega)
        (fun u hu => hts u (List.mem_cons_of_mem _ hu))
      refine ⟨?_, ?_⟩
      · simp [checkSeq, hstep, ihres.1, List.replicate_succ]
      · have harith : k + 1 + ts.length = k + (ts.length + 1) := by omega
        simp only [checkSeq, hstep]
        simpa [harith] using ihres.2

/-- One `check` call keeps the client's count at or below the limit
(provided the limit is at least one). -/
theorem check_preserves_le (w m : Nat) (hm : 1 ≤ m) (s : Store) (c : String)
    (t : Nat) (h : ∀ d, s.find? c = some d → d.count ≤ m) :
    ∀ d, (check w m s c t).2.find? c = some d → d.count ≤ m := by
  intro d hd
  obtain ⟨dc, drt⟩ := d
  cases hs : s.find? c with
  | none =>
      simp [check_absent w m s c t hs, Store.find?_set_self,
        RateLimitData.mk.injEq] at hd
      show dc ≤ m
      omega
  | some e =>
      obtain ⟨k, rt⟩ := e
      by_cases hrt : t < rt
      · by_cases hk : m ≤ k
        · rw [check_at_limit w m s c t k rt hs hrt hk] at hd
          exact h _ hd
        · have hc := h ⟨k, rt⟩ hs
          simp [check_under w m s c t k rt hs hrt (Nat.not_le.mp hk),
            Store.find?_set_self, RateLimitData.mk.injEq] at hd
          simp at hc
          show dc ≤ m
          omega
      · simp [check_expired w m s c t k rt hs (Nat.not_lt.mp hrt),
          Store.find?_set_self, RateLimitData.mk.injEq] at hd
        show dc ≤ m
        omega

/-- Any sequence of `check` calls keeps the count at or below the limit. -/
theorem checkSeq_preserves_le (w m : Nat) (hm : 1 ≤ m) (c : String) :
    ∀ (ts : List Nat) (s : Store),
      (∀ d, s.find? c = some d → d.count ≤ m) →
      ∀ d, (checkSeq w m c s ts).2.find? c = some d → d.count ≤ m := by
  intro ts
  induction ts with
  | nil =>
      intro s h d hd
      exact h d (by simpa [checkSeq] using hd)
  | cons t ts ih =>
      intro s h d hd
      apply ih (check w m s c t).2 (check_preserves_le w m hm s c t h) d
      simpa [checkSeq] using hd

/-! ## Claim theorems: rate limiter -/

/-- **C8.** When a client is at or over the limit and its `resetTime` has
not yet passed, `check()` returns `allowed = false` with the stored
`resetTime` returned unchanged, and the rejected call leaves the whole
store — in particular the client's entry — unmodified: the count is not
incremented and the reset time is not altered. -/
theorem c8_check_denied_is_pure (w m : Nat) (s : Store) (c : String)
    (t : Nat) (d : RateLimitData) (hs : s.find? c = some d)
    (hk : m ≤ d.count) (hrt : t < d.resetTime) :
    check w m s c t = (⟨false, some d.resetTime⟩, s) := by
  obtain ⟨k, rt⟩ := d
  exact check_at_limit w m s c t k rt hs hrt hk

/-- Witness for **C8** at a concrete store, limit and time. -/
theorem c8_check_denied_is_pure_witness :
    Store.find? [("a", ⟨2, 100⟩)] "a" = some ⟨2, 100⟩ ∧
    (2 : Nat) ≤ 2 ∧ (50 : Nat) < 100 ∧
    check 60000 2 [("a", ⟨2, 100⟩)] "a" 50 =
      (⟨false, some 100⟩, [("a", ⟨2, 100⟩)]) :=
  ⟨by decide, by decide, by decide,
    c8_check_denied_is_pure 60000 2 [("a", ⟨2, 100⟩)] "a" 50 ⟨2, 100⟩
      (by decide) (by decide) (by decide)⟩

/-- **C2.** For a fresh client and a limit `m ≥ 1`: the first `m` calls
within one window are all allowed; the `(m+1)`-th call inside the same
window is denied, reporting the window's reset time; once the current
time reaches the reset time the next call is allowed again and starts a
fresh window (`count = 1`, `resetTime = v + w`); and for any sequence of
call times whatsoever the stored count never exceeds the limit. -/
theorem c2_rate_limit_window (w m t0 u v : Nat) (c : String) (s : Store)
    (ts : List Nat) (hfresh : s.find? c = none) (hm : 1 ≤ m)
    (hlen : ts.length = m - 1) (hts : ∀ t ∈ ts, t < t0 + w)
    (hu : u < t0 + w) (hv : t0 + w ≤ v) :
    (checkSeq w m c s (t0 :: ts)).1 = List.replicate m true ∧
    (check w m (checkSeq w m c s (t0 :: ts)).2 c u).1 = ⟨false, some (t0 + w)⟩ ∧
    (check w m (checkSeq w m c s (t0 :: ts)).2 c v).1 = ⟨true, none⟩ ∧
    (check w m (checkSeq w m c s (t0 :: ts)).2 c v).2.find? c =
      some ⟨1, v + w⟩ ∧
    (∀ ts' : List Nat, ∀ d,
      (checkSeq w m c s ts').2.find? c = some d → d.count ≤ m) := by
  have hstep := check_absent w m s c t0 hfresh
  have hrun := checkSeq_under w m c t0 ts (s.set c ⟨1, t0 + w⟩) 1
    (Store.find?_set_self s c ⟨1, t0 + w⟩) (by omega) hts
  have hfull1 : (checkSeq w m c s (t0 :: ts)).1 = List.replicate m true := by
    have hm' : m = ts.length + 1 := by omega
    have hrep : List.replicate m true = true :: List.replicate ts.length true := by
      rw [hm', List.replicate_succ]
    rw [hrep]
    simp [checkSeq, hstep, hrun.1]
  have hfull2 : (checkSeq w m c s (t0 :: ts)).2.find? c = some ⟨m, t0 + w⟩ := by
    have hm' : 1 + ts.length = m := by omega
    simp only [checkSeq, hstep]
    simpa [hm'] using hrun.2
  refine ⟨hfull1, ?_, ?_, ?_, ?_⟩
  · rw [check_at_limit w m _ c u m (t0 + w) hfull2 hu (Nat.le_refl m)]
  · rw [check_expired w m _ c v m (t0 + w) hfull2 hv]
  · rw [check_expired w m _ c v m (t0 + w) hfull2 hv]
    exact Store.find?_set_self _ c ⟨1, v + w⟩
  · intro ts' d hd
    exact checkSeq_preserves_le w m hm c ts' s
      (fun d' hd' => by rw [hfresh] at hd'; cases hd') d hd

/-- Witness for **C2**: window 10, limit 3, calls at times 0, 1, 2
(allowed), 3 (denied), then 10 (allowed again with a fresh window). -/
theorem c2_rate_limit_window_witness :
    (checkSeq 10 3 "a" [] [0, 1, 2]).1 = List.replicate 3 true ∧
    (check 10 3 (checkSeq 10 3 "a" [] [0, 1, 2]).2 "a" 3).1 =
      ⟨false, some 10⟩ ∧
    (check 10 3 (checkSeq 10 3 "a" [] [0, 1, 2]).2 "a" 10).1 = ⟨true, none⟩ ∧
    (check 10 3 (checkSeq 10 3 "a" [] [0, 1, 2]).2 "a" 10).2.find? "a" =
      some ⟨1, 20⟩ ∧
    (∀ ts' : List Nat, ∀ d,
      (checkSeq 10 3 "a" [] ts').2.find? "a" = some d → d.count ≤ 3) :=
  c2_rate_limit_window 10 3 0 3 10 "a" [] [1, 2] (by decide) (by decide)
    (by decide) (by decide) (by decide) (by decide)

/-- **C3 counterexample.** At the instant `now = resetTime`, the
persistent limiter's `check` treats the entry as expired (`now >=
resetTime`) and admits the call, while the in-memory fallback still
treats it as active (`now > resetTime` is false) and denies it: the two
check semantics are not identical. -/
theorem c3_fallback_boundary_counterexample :
    (check 10 1 [("c", ⟨1, 5⟩)] "c" 5).1 = ⟨true, none⟩ ∧
    (checkFallback 10 1 [("c", ⟨1, 5⟩)] "c" 5).1 = ⟨false, some 5⟩ ∧
    (check 10 1 [("c", ⟨1, 5⟩)] "c" 5).1 ≠
      (checkFallback 10 1 [("c", ⟨1, 5⟩)] "c" 5).1 := by
  refine ⟨by decide, by decide, by decide⟩

/-- **C3 amended.** Away from the boundary instant `now = resetTime` the
two limiters do agree: started from stores holding the same entries, a
single call returns the same `allowed`/`resetTime` result in both and
leaves stores holding the same entries (so, by induction, any sequence of
calls that never lands exactly on a stored reset time behaves
identically). -/
theorem c3_fallback_equiv_off_boundary (w m now : Nat) (c : String)
    (s₁ s₂ : Store) (hagree : ∀ k, s₁.find? k = s₂.find? k)
    (hnb : ∀ d, s₁.find? c = some d → now ≠ d.resetTime) :
    (check w m s₁ c now).1 = (checkFallback w m s₂ c now).1 ∧
    ∀ k, (check w m s₁ c now).2.find? k =
      (checkFallback w m s₂ c now).2.find? k := by
  cases hs : s₁.find? c with
  | none =>
      have hs₂ : s₂.find? c = none := (hagree c).symm.trans hs
      rw [check_absent w m s₁ c now hs, fallback_absent w m s₂ c now hs₂]
      refine ⟨rfl, fun k => ?_⟩
      by_cases hk : k = c
      · subst hk; rw [Store.find?_set_self, Store.find?_set_self]
      · rw [Store.find?_set_ne _ _ _ _ hk, Store.find?_set_ne _ _ _ _ hk]
        exact hagree k
  | some d =>
      obtain ⟨dk, drt⟩ := d
      have hs₂ : s₂.find? c = some ⟨dk, drt⟩ := (hagree c).symm.trans hs
      have hne : now ≠ drt := hnb ⟨dk, drt⟩ hs
      by_cases hlt : now < drt
      · by_cases hk : m ≤ dk
        · rw [check_at_limit w m s₁ c now dk drt hs hlt hk,
              fallback_at_limit w m s₂ c now dk drt hs₂ (Nat.le_of_lt hlt) hk]
          exact ⟨rfl, hagree⟩
        · rw [check_under w m s₁ c now dk drt hs hlt (Nat.not_le.mp hk),
              fallback_under w m s₂ c now dk drt hs₂ (Nat.le_of_lt hlt)
                (Nat.not_le.mp hk)]
          refine ⟨rfl, fun k => ?_⟩
          by_cases hkc : k = c
          · subst hkc; rw [Store.find?_set_self, Store.find?_set_self]
          · rw [Store.find?_set_ne _ _ _ _ hkc, Store.find?_set_ne _ _ _ _ hkc]
            exact hagree k
      · have hgt : drt < now := by omega
        rw [check_expired w m s₁ c now dk drt hs (Nat.le_of_lt hgt),
            fallback_expired w m s₂ c now dk drt hs₂ hgt]
        refine ⟨rfl, fun k => ?_⟩
        by_cases hkc : k = c
        · subst hkc; rw [Store.find?_set_self, Store.find?_set_self]
        · rw [Store.find?_set_ne _ _ _ _ hkc, Store.find?_set_ne _ _ _ _ hkc,
              Store.find?_erase_ne _ _ _ hkc]
          exact hagree k

/-- Witness for the amended **C3** on empty stores. -/
theorem c3_fallback_equiv_off_boundary_witness :
    (check 10 2 [] "a" 7).1 = (checkFallback 10 2 [] "a" 7).1 ∧
    ∀ k, (check 10 2 [] "a" 7).2.find? k =
      (checkFallback 10 2 [] "a" 7).2.find? k :=
  c3_fallback_equiv_off_boundary 10 2 7 "a" [] [] (fun _ => rfl)
    (fun d hd => by simp [Store.find?] at hd)

/-- **C1.** `RateLimiter.load` never restores the persisted entries: the
constructor calls the promise-returning `readFile` without `await`, so
`JSON.parse` is applied to the string form of the pending promise and
throws, and the catch block resets the store to `{}`.  The conjuncts
show: (1) the persisted file contents themselves are well-formed and
parse to the intended entry; (2) the string actually handed to
`JSON.parse` does not parse; (3) `load` therefore yields the empty store;
(4) after a restart a client that the persisted entry (count 3 = max,
reset time 1000 still in the future at t = 500) should have been denied
is admitted; (5) with the entry actually loaded, the same call would have
been denied. -/
theorem c1_load_discards_persisted_state :
    jsonParseStore "\x7b\"clientA\":\x7b\"count\":3,\"resetTime\":1000\x7d\x7d" =
      some [("clientA", ⟨3, 1000⟩)] ∧
    jsonParseStore promiseToString = none ∧
    load true "\x7b\"clientA\":\x7b\"count\":3,\"resetTime\":1000\x7d\x7d" = [] ∧
    (check 60000 3
      (load true "\x7b\"clientA\":\x7b\"count\":3,\"resetTime\":1000\x7d\x7d")
      "clientA" 500).1 = ⟨true, none⟩ ∧
    (check 60000 3 [("clientA", ⟨3, 1000⟩)] "clientA" 500).1 =
      ⟨false, some 1000⟩ := by
  refine ⟨by decide, by decide, by decide, by decide, by decide⟩

/-! ## Claim theorems: platform detection and validation -/

/-- Contrapositive transport of containment along the infix order. -/
theorem containsSub_false_within {hay hay' n : List Char}
    (hinf : hay' <:+: hay) (h : containsSub hay n = false) :
    containsSub hay' n = false := by
  cases hh : containsSub hay' n with
  | false => rfl
  | true =>
      rw [containsSub_within hinf hh] at h
      exact Bool.noConfusion h

/-- **C10.** `detectPlatform` is a substring test over the entire
lowercased (and trimmed) URL string, in table order: any string
containing `instagram.com` is instagram; otherwise any containing
`x.com` or `twitter.com` is twitter; otherwise any containing
`tiktok.com` is tiktok; otherwise no platform — regardless of where in
the string (host, path, query, …) the domain substring occurs. -/
theorem c10_detect_platform_substring (url : String) :
    (containsSub (jsTrim (lowerL url.data)) "instagram.com".data = true →
      detectPlatform url = some .instagram) ∧
    (containsSub (jsTrim (lowerL url.data)) "instagram.com".data = false →
     (containsSub (jsTrim (lowerL url.data)) "x.com".data = true ∨
      containsSub (jsTrim (lowerL url.data)) "twitter.com".data = true) →
      detectPlatform url = some .twitter) ∧
    (containsSub (jsTrim (lowerL url.data)) "instagram.com".data = false →
     containsSub (jsTrim (lowerL url.data)) "x.com".data = false →
     containsSub (jsTrim (lowerL url.data)) "twitter.com".data = false →
     containsSub (jsTrim (lowerL url.data)) "tiktok.com".data = true →
      detectPlatform url = some .tiktok) ∧
    (containsSub (jsTrim (lowerL url.data)) "instagram.com".data = false →
     containsSub (jsTrim (lowerL url.data)) "x.com".data = false →
     containsSub (jsTrim (lowerL url.data)) "twitter.com".data = false →
     containsSub (jsTrim (lowerL url.data)) "tiktok.com".data = false →
      detectPlatform url = none) := by
  refine ⟨?_, ?_, ?_, ?_⟩
  · intro h
    simp [detectPlatform, h]
  · rintro h (hx | ht)
    · simp [detectPlatform, h, hx]
    · simp [detectPlatform, h, ht]
  · intro h hx ht htk
    simp [detectPlatform, h, hx, ht, htk]
  · intro h hx ht htk
    simp [detectPlatform, h, hx, ht, htk]

/-- Witness for **C10**: a youtube.com URL carrying `tiktok.com` only in
its query string is classified as tiktok; an instagram URL as
instagram. -/
theorem c10_detect_platform_substring_witness :
    detectPlatform "https://www.youtube.com/watch?v=tiktok.com" =
      some .tiktok ∧
    detectPlatform "https://www.instagram.com/p/ABC123" = some .instagram :=
  ⟨(c10_detect_platform_substring
      "https://www.youtube.com/watch?v=tiktok.com").2.2.1
      (by decide) (by decide) (by decide) (by decide),
   (c10_detect_platform_substring "https://www.instagram.com/p/ABC123").1
      (by decide)⟩

/-- **C7 counterexample.** `https://www.youtube.com/watch?v=tiktok.com`
has host `www.youtube.com`, outside the supported set, yet `validate`
does NOT report "Unsupported platform" and DOES set a platform (tiktok),
because platform detection scans the whole URL string and finds
`tiktok.com` in the query. -/
theorem c7_unsupported_counterexample :
    parseURLChars
        (jsTrim "https://www.youtube.com/watch?v=tiktok.com".data) =
      some ⟨"https".data, "www.youtube.com".data, "/watch".data,
        "v=tiktok.com".data⟩ ∧
    containsSub "www.youtube.com".data "instagram.com".data = false ∧
    containsSub "www.youtube.com".data "x.com".data = false ∧
    containsSub "www.youtube.com".data "twitter.com".data = false ∧
    containsSub "www.youtube.com".data "tiktok.com".data = false ∧
    (validate "https://www.youtube.com/watch?v=tiktok.com").platform =
      some .tiktok ∧
    ((validate "https://www.youtube.com/watch?v=tiktok.com").errors.any
      (fun e => containsSub e.data "Unsupported platform".data)) = false := by
  refine ⟨by decide, by decide, by decide, by decide, by decide, by decide,
    by decide⟩

/-- **C7 amended.** For every parseable URL whose entire lowercased
string contains none of the platform-domain substrings (`instagram.com`,
`x.com`, `twitter.com`, `tiktok.com`) — in particular every URL whose
host and the rest of the string alike avoid them — `validate` returns
`isValid = false` with the "Unsupported platform" message and no
platform set.  (The original claim, conditioned only on the host, is
refuted by `c7_unsupported_counterexample`.) -/
theorem c7_unsupported_platform (url : String) (r : URLRec)
    (hp : parseURLChars (jsTrim url.data) = some r)
    (h1 : containsSub (lowerL url.data) "instagram.com".data = false)
    (h2 : containsSub (lowerL url.data) "x.com".data = false)
    (h3 : containsSub (lowerL url.data) "twitter.com".data = false)
    (h4 : containsSub (lowerL url.data) "tiktok.com".data = false) :
    (validate url).isValid = false ∧
    unsupportedMsg ∈ (validate url).errors ∧
    (validate url).platform = none := by
  have hne : url ≠ "" := by
    intro h
    subst h
    rw [show jsTrim ("" : String).data = [] from rfl] at hp
    simp [parseURLChars, prepInput] at hp
  have hmk : (⟨jsTrim url.data⟩ : String).data = jsTrim url.data := rfl
  have hinf : jsTrim (lowerL (jsTrim url.data)) <:+: lowerL url.data :=
    (jsTrim_within _).trans (lowerL_within (jsTrim_within url.data))
  have g1 := containsSub_false_within hinf h1
  have g2 := containsSub_false_within hinf h2
  have g3 := containsSub_false_within hinf h3
  have g4 := containsSub_false_within hinf h4
  have hdet : detectPlatform ⟨jsTrim url.data⟩ = none := by
    simp [detectPlatform, hmk, g1, g2, g3, g4]
  have hv : validate url =
      ⟨false,
        (if (r.scheme = "http".data || r.scheme = "https".data : Bool)
          then ([] : List String) else [protocolMsg]) ++ [unsupportedMsg],
        none, none⟩ := by
    simp only [validate, if_neg hne, hmk, hp, hdet]
  rw [hv]
  refine ⟨rfl, ?_, rfl⟩
  exact List.mem_append_right _ (List.mem_singleton.mpr rfl)

/-- Witness for the amended **C7** at the spec's own example URL. -/
theorem c7_unsupported_platform_witness :
    (validate "https://www.youtube.com/watch?v=123").isValid = false ∧
    unsupportedMsg ∈ (validate "https://www.youtube.com/watch?v=123").errors ∧
    (validate "https://www.youtube.com/watch?v=123").platform = none :=
  c7_unsupported_platform "https://www.youtube.com/watch?v=123"
    ⟨"https".data, "www.youtube.com".data, "/watch".data, "v=123".data⟩
    (by decide) (by decide) (by decide) (by decide) (by decide)

/-- **C9.** A structurally valid URL whose scheme is neither `http` nor
`https` gets the protocol error appended without short-circuiting: when
the (supported-platform-gated) later stages also succeed, `validate`
still returns the platform and content id alongside `isValid = false`
and exactly the protocol error message. -/
theorem c9_protocol_no_short_circuit (url : String) (r : URLRec)
    (hp : parseURLChars (jsTrim url.data) = some r)
    (hs1 : r.scheme ≠ "http".data) (hs2 : r.scheme ≠ "https".data) :
    protocolMsg ∈ (validate url).errors ∧
    (∀ p cid, detectPlatform ⟨jsTrim url.data⟩ = some p →
      extractContentId ⟨jsTrim url.data⟩ p = some cid →
      validate url = ⟨false, [protocolMsg], some p, some cid⟩) := by
  have hne : url ≠ "" := by
    intro h
    subst h
    rw [show jsTrim ("" : String).data = [] from rfl] at hp
    simp [parseURLChars, prepInput] at hp
  have hmk : (⟨jsTrim url.data⟩ : String).data = jsTrim url.data := rfl
  have hsch : (r.scheme = "http".data || r.scheme = "https".data : Bool)
      = false := by
    simp [hs1, hs2]
  constructor
  · simp only [validate, if_neg hne, hmk, hp, hsch]
    cases hdet : detectPlatform ⟨jsTrim url.data⟩ with
    | none => simp [hdet]
    | some p =>
        cases hext : extractContentId ⟨jsTrim url.data⟩ p with
        | none => simp [hdet, hext]
        | some cid => simp [hdet, hext]
  · intro p cid hdet hext
    simp only [validate, if_neg hne, hmk, hp, hsch, hdet, hext]
    rfl

/-- Witness for **C9**: a `ws://` URL on a supported platform is invalid
with the protocol error, yet platform and content id are both set. -/
theorem c9_protocol_no_short_circuit_witness :
    protocolMsg ∈ (validate "ws://instagram.com/p/ABC123").errors ∧
    validate "ws://instagram.com/p/ABC123" =
      ⟨false, [protocolMsg], some .instagram, some "ABC123"⟩ :=
  ⟨(c9_protocol_no_short_circuit "ws://instagram.com/p/ABC123"
      ⟨"ws".data, "instagram.com".data, "/p/ABC123".data, []⟩
      (by decide) (by decide) (by decide)).1,
   (c9_protocol_no_short_circuit "ws://instagram.com/p/ABC123"
      ⟨"ws".data, "instagram.com".data, "/p/ABC123".data, []⟩
      (by decide) (by decide) (by decide)).2 .instagram "ABC123"
      (by decide) (by decide)⟩

/-! ## Claim theorems: sanitize error handling -/

/-- **C4.** `sanitize`'s error discipline: an input whose trimmed,
lowercased form starts with a denylisted scheme fails with the
SecurityError message "Dangerous protocol detected"; otherwise an input
matching an XSS marker fails with "XSS pattern detected"; otherwise an
input that does not parse as a URL fails with the FormatError message
"Invalid URL format"; and any security error thrown inside the body
propagates through the catch block unchanged, never re-wrapped as a
FormatError. -/
theorem c4_sanitize_error_classes (url : String) :
    (startsWithDangerous (lowerL (jsTrim url.data)) = true →
      sanitize url = .error "Dangerous protocol detected") ∧
    (startsWithDangerous (lowerL (jsTrim url.data)) = false →
     hasXSS (jsTrim url.data) = true →
      sanitize url = .error "XSS pattern detected") ∧
    (startsWithDangerous (lowerL (jsTrim url.data)) = false →
     hasXSS (jsTrim url.data) = false →
     parseURLChars (jsTrim url.data) = none →
      sanitize url = .error "Invalid URL format") ∧
    (∀ e, sanitizeBody url = .error e →
      (containsSub e.data "Dangerous".data ||
        containsSub e.data "XSS".data) = true →
      sanitize url = .error e) := by
  refine ⟨?_, ?_, ?_, ?_⟩
  · intro h
    simp [sanitize, sanitizeBody, h, containsSub]
  · intro h hx
    simp [sanitize, sanitizeBody, h, hx, containsSub]
  · intro h hx hp
    simp [sanitize, sanitizeBody, h, hx, hp, containsSub]
  · intro e he hsec
    simp [sanitize, he, hsec]

/-- Witness for **C4** on one concrete input per error class. -/
theorem c4_sanitize_error_classes_witness :
    sanitize "javascript:alert(1)" = .error "Dangerous protocol detected" ∧
    sanitize "https://example.com/<script>" = .error "XSS pattern detected" ∧
    sanitize "not-a-url" = .error "Invalid URL format" ∧
    sanitize "data:text/html" = .error "Dangerous protocol detected" :=
  ⟨(c4_sanitize_error_classes "javascript:alert(1)").1 (by decide),
   (c4_sanitize_error_classes "https://example.com/<script>").2.1
     (by decide) (by decide),
   (c4_sanitize_error_classes "not-a-url").2.2.1
     (by decide) (by decide) (by decide),
   (c4_sanitize_error_classes "data:text/html").2.2.2
     "Dangerous protocol detected" (by decide) (by decide)⟩

/-! ## Round-trip lemmas for the query-parameter serialization -/

/-- Hex digits round-trip through `toHexDigit`/`hexVal?`. -/
theorem hexVal_toHexDigit : ∀ n : Nat, n < 16 → hexVal? (toHexDigit n) = some n := by
  decide

/-- Every character emitted by `formEncodeChar` sits above the
control/space range and is none of `#`, `&`, `=`. -/
theorem formEncodeChar_chars (c : Char) :
    ∀ c' ∈ formEncodeChar c,
      32 < c'.toNat ∧ c' ≠ '#' ∧ c' ≠ '&' ∧ c' ≠ '=' := by
  intro c' hc'
  unfold formEncodeChar at hc'
  by_cases hsafe : isFormSafe c = true
  · rw [if_pos hsafe] at hc'
    have hc : c' = c := by simpa using hc'
    subst hc
    unfold isFormSafe isAlphanumChar isAlphaChar isDigitChar at hsafe
    have hn : (65 ≤ c'.toNat ∧ c'.toNat ≤ 90) ∨ (97 ≤ c'.toNat ∧ c'.toNat ≤ 122) ∨
        (48 ≤ c'.toNat ∧ c'.toNat ≤ 57) ∨ c' = '*' ∨ c' = '-' ∨ c' = '.' ∨
        c' = '_' := by
      simpa [Bool.or_eq_true, Bool.and_eq_true, decide_eq_true_eq,
        or_assoc] using hsafe
    have hval : 48 ≤ c'.toNat ∧ c'.toNat ≤ 122 ∨ c'.toNat = 42 ∨
        c'.toNat = 45 ∨ c'.toNat = 46 ∨ c'.toNat = 95 := by
      rcases hn with h | h | h | h | h | h | h
      · exact Or.inl (by omega)
      · exact Or.inl (by omega)
      · exact Or.inl (by omega)
      · subst h; right; left; rfl
      · subst h; right; right; left; rfl
      · subst h; right; right; right; left; rfl
      · subst h; right; right; right; right; rfl
    have hne : c'.toNat ≠ 35 ∧ c'.toNat ≠ 38 ∧ c'.toNat ≠ 61 ∧
        32 < c'.toNat := by
      rcases hn with h | h | h | h | h | h | h <;>
        first
          | omega
          | (subst h; refine ⟨by decide, by decide, by decide, by decide⟩)
    refine ⟨hne.2.2.2, ?_, ?_, ?_⟩
    · intro he; rw [char_eq_iff_toNat] at he; exact hne.1 he
    · intro he; rw [char_eq_iff_toNat] at he; exact hne.2.1 he
    · intro he; rw [char_eq_iff_toNat] at he; exact hne.2.2.1 he
  · rw [if_neg hsafe] at hc'
    by_cases hsp : c = ' '
    · rw [if_pos hsp] at hc'
      have hc : c' = '+' := by simpa using hc'
      subst hc
      refine ⟨by decide, by decide, by decide, by decide⟩
    · rw [if_neg hsp] at hc'
      by_cases hlt : c.toNat < 128
      · rw [if_pos hlt] at hc'
        unfold percentByte at hc'
        have hdiv : c.toNat / 16 < 16 := by omega
        have hmod : c.toNat % 16 < 16 := by omega
        have hhex : ∀ n : Nat, n < 16 →
            32 < (toHexDigit n).toNat ∧ toHexDigit n ≠ '#' ∧
            toHexDigit n ≠ '&' ∧ toHexDigit n ≠ '=' := by decide
        have hmem : c' = '%' ∨ c' = toHexDigit (c.toNat / 16) ∨
            c' = toHexDigit (c.toNat % 16) := by simpa using hc'
        rcases hmem with hc | hc | hc
        · subst hc; refine ⟨by decide, by decide, by decide, by decide⟩
        · subst hc; exact hhex _ hdiv
        · subst hc; exact hhex _ hmod
      · rw [if_neg hlt] at hc'
        have hc : c' = c := by simpa using hc'
        subst hc
        have h128 : 128 ≤ c'.toNat := by omega
        refine ⟨by omega, ?_, ?_, ?_⟩
        · intro he
          rw [char_eq_iff_toNat, show ('#' : Char).toNat = 35 from rfl] at he
          omega
        · intro he
          rw [char_eq_iff_toNat, show ('&' : Char).toNat = 38 from rfl] at he
          omega
        · intro he
          rw [char_eq_iff_toNat, show ('=' : Char).toNat = 61 from rfl] at he
          omega

/-- Decoding undoes one encoded character at the head of a stream. -/
theorem formDecode_encodeChar (c : Char) (rest : List Char) :
    formDecode (formEncodeChar c ++ rest) = c :: formDecode rest := by
  unfold formEncodeChar
  by_cases hsafe : isFormSafe c = true
  · rw [if_pos hsafe]
    have h1 : c ≠ '+' := fun e => by rw [e] at hsafe; exact absurd hsafe (by decide)
    have h2 : c ≠ '%' := fun e => by rw [e] at hsafe; exact absurd hsafe (by decide)
    simp [formDecode, h1, h2]
  · rw [if_neg hsafe]
    by_cases hsp : c = ' '
    · rw [if_pos hsp, hsp]
      simp [formDecode]
    · rw [if_neg hsp]
      by_cases hlt : c.toNat < 128
      · rw [if_pos hlt]
        unfold percentByte
        have hdiv : c.toNat / 16 < 16 := by omega
        have hmod : c.toNat % 16 < 16 := by omega
        simp [formDecode, hexVal_toHexDigit _ hdiv, hexVal_toHexDigit _ hmod,
          Nat.div_add_mod, Char.ofNat_toNat]
      · rw [if_neg hlt]
        have h1 : c ≠ '+' := fun e => by
          rw [e] at hlt; exact absurd (by decide : ('+' : Char).toNat < 128) hlt
        have h2 : c ≠ '%' := fun e => by
          rw [e] at hlt; exact absurd (by decide : ('%' : Char).toNat < 128) hlt
        simp [formDecode, h1, h2]

/-- Decoding undoes encoding at the head of a stream. -/
theorem formDecode_formEncode_append (l rest : List Char) :
    formDecode (formEncode l ++ rest) = l ++ formDecode rest := by
  induction l with
  | nil => simp [formEncode]
  | cons c t ih =>
      have hstep : formEncode (c :: t) = formEncodeChar c ++ formEncode t := by
        simp [formEncode]
      rw [hstep, List.append_assoc, formDecode_encodeChar, ih]
      rfl

/-- Decoding undoes encoding. -/
theorem formDecode_formEncode (l : List Char) :
    formDecode (formEncode l) = l := by
  have h := formDecode_formEncode_append l []
  simpa [formDecode] using h

/-- `splitAmpAux` on an input without separators. -/
theorem splitAmpAux_no_amp (s : List Char) :
    ∀ acc, (∀ c ∈ s, c ≠ '&') → splitAmpAux s acc = [acc.reverse ++ s] := by
  induction s with
  | nil => intro acc _; simp [splitAmpAux]
  | cons c t ih =>
      intro acc h
      have hc : c ≠ '&' := h c (List.mem_cons_self _ _)
      rw [splitAmpAux, if_neg hc, ih (c :: acc) (fun u hu => h u (List.mem_cons_of_mem _ hu))]
      simp

/-- `splitAmpAux` splits at the first separator. -/
theorem splitAmpAux_amp (s rest : List Char) :
    ∀ acc, (∀ c ∈ s, c ≠ '&') →
      splitAmpAux (s ++ '&' :: rest) acc =
        (acc.reverse ++ s) :: splitAmpAux rest [] := by
  induction s with
  | nil => intro acc _; simp [splitAmpAux]
  | cons c t ih =>
      intro acc h
      have hc : c ≠ '&' := h c (List.mem_cons_self _ _)
      rw [List.cons_append, splitAmpAux, if_neg hc,
        ih (c :: acc) (fun u hu => h u (List.mem_cons_of_mem _ hu))]
      simp

/-- Every character of a form-encoded string sits above the control/space
range and is none of `#`, `&`, `=`. -/
theorem formEncode_chars (l : List Char) :
    ∀ c' ∈ formEncode l, 32 < c'.toNat ∧ c' ≠ '#' ∧ c' ≠ '&' ∧ c' ≠ '=' := by
  intro c' hc'
  unfold formEncode at hc'
  rcases List.mem_flatten.mp hc' with ⟨seg, hseg, hcs⟩
  rcases List.mem_map.mp hseg with ⟨x, _, hx⟩
  exact formEncodeChar_chars x c' (by rw [hx]; exact hcs)

/-- `splitEq` recovers the two encoded halves of a serialized pair. -/
theorem splitEq_encoded (k v : List Char) :
    splitEq (formEncode k ++ '=' :: formEncode v) =
      (formEncode k, formEncode v) := by
  unfold splitEq
  rw [spanUntil_append (fun c => c = '=') (formEncode k) '=' (formEncode v)
    (fun c hc => by simp [(formEncode_chars k c hc).2.2.2])
    (by simp)]

/-- A serialized pair contains no `&`. -/
theorem serializePair_no_amp (kv : List Char × List Char) :
    ∀ c ∈ serializePair kv, c ≠ '&' := by
  intro c hc
  unfold serializePair at hc
  rcases List.mem_append.mp hc with h | h
  · exact (formEncode_chars _ c h).2.2.1
  · rcases List.mem_cons.mp h with h | h
    · subst h; decide
    · exact (formEncode_chars _ c h).2.2.1

/-- A serialized pair is never empty (it contains its `=`). -/
theorem serializePair_ne_nil (kv : List Char × List Char) :
    serializePair kv ≠ [] := by
  unfold serializePair
  simp

/-- Parsing a single serialized pair yields it back. -/
theorem parseParams_one (kv : List Char × List Char) :
    parseParams (serializePair kv) = [kv] := by
  unfold parseParams splitAmp
  rw [splitAmpAux_no_amp (serializePair kv) [] (serializePair_no_amp kv)]
  simp only [List.reverse_nil, List.nil_append]
  rw [List.filter_cons_of_pos (by simp [serializePair_ne_nil kv]),
    List.filter_nil, List.map_cons, List.map_nil]
  show [(formDecode (splitEq (formEncode kv.1 ++ '=' :: formEncode kv.2)).1,
         formDecode (splitEq (formEncode kv.1 ++ '=' :: formEncode kv.2)).2)] = [kv]
  rw [splitEq_encoded kv.1 kv.2]
  simp [formDecode_formEncode]

/-- **Round trip**: `URLSearchParams` parsing undoes serialization for
every list of name/value pairs. -/
theorem parseParams_serializeParams (l : List (List Char × List Char)) :
    parseParams (serializeParams l) = l := by
  induction l with
  | nil => rfl
  | cons kv rest ih =>
      cases rest with
      | nil => exact parseParams_one kv
      | cons kv2 rest2 =>
          show parseParams
            (serializePair kv ++ '&' :: serializeParams (kv2 :: rest2)) =
            kv :: kv2 :: rest2
          unfold parseParams splitAmp
          rw [splitAmpAux_amp (serializePair kv) _ [] (serializePair_no_amp kv)]
          simp only [List.reverse_nil, List.nil_append]
          rw [List.filter_cons_of_pos (by simp [serializePair_ne_nil kv]),
            List.map_cons]
          have hhead : (formDecode (splitEq (serializePair kv)).1,
              formDecode (splitEq (serializePair kv)).2) = kv := by
            show (formDecode
                (splitEq (formEncode kv.1 ++ '=' :: formEncode kv.2)).1,
              formDecode
                (splitEq (formEncode kv.1 ++ '=' :: formEncode kv.2)).2) = kv
            rw [splitEq_encoded kv.1 kv.2]
            simp [formDecode_formEncode]
          have htail : parseParams (serializeParams (kv2 :: rest2)) =
              kv2 :: rest2 := ih
          unfold parseParams splitAmp at htail
          rw [hhead, htail]

/-! ## Claim theorems: sanitize happy path -/

/-- **C5.** For every parseable, non-dangerous input, `sanitize` returns
exactly scheme + host + pathname followed by the surviving query
parameters — the original parameters whose (lowercased) key is not
denylisted, in their original relative order, as witnessed by re-parsing
the emitted query — with the fragment dropped (the build never includes
it). -/
theorem c5_sanitize_happy_path (url : String) (r : URLRec)
    (hd : startsWithDangerous (lowerL (jsTrim url.data)) = false)
    (hx : hasXSS (jsTrim url.data) = false)
    (hp : parseURLChars (jsTrim url.data) = some r) :
    sanitize url = .ok ⟨buildSafeURL r
      (serializeParams (filterParams (parseParams r.search)))⟩ ∧
    parseParams (serializeParams (filterParams (parseParams r.search))) =
      (parseParams r.search).filter (fun kv => !isDangerousParam kv.1) := by
  constructor
  · simp [sanitize, sanitizeBody, hd, hx, hp]
  · rw [parseParams_serializeParams]
    rfl

/-- Witness for **C5**: the two sample URLs from the specification. -/
theorem c5_sanitize_happy_path_witness :
    sanitize "https://instagram.com/p/ABC123?callback=evil" =
      .ok "https://instagram.com/p/ABC123" ∧
    sanitize "https://example.com?url=bad&safe=ok" =
      .ok "https://example.com/?safe=ok" :=
  ⟨((c5_sanitize_happy_path "https://instagram.com/p/ABC123?callback=evil"
      ⟨"https".data, "instagram.com".data, "/p/ABC123".data,
        "callback=evil".data⟩
      (by decide) (by decide) (by decide)).1).trans (by decide),
   ((c5_sanitize_happy_path "https://example.com?url=bad&safe=ok"
      ⟨"https".data, "example.com".data, "/".data, "url=bad&safe=ok".data⟩
      (by decide) (by decide) (by decide)).1).trans (by decide)⟩

/-! ## Claim theorems: sanitize idempotence -/

/-- **C6 counterexample.** `sanitize` is not idempotent on its own
outputs: `sanitize "mailto:a@b.com"` succeeds with
`"mailto://a@b.com"` (opaque path re-serialized behind `//`), but
sanitizing that output re-parses `a@b.com` as an authority, strips the
userinfo and returns `"mailto://b.com"` instead of the input. -/
theorem c6_sanitize_not_idempotent :
    sanitize "mailto:a@b.com" = .ok "mailto://a@b.com" ∧
    sanitize "mailto://a@b.com" = .ok "mailto://b.com" ∧
    sanitize "mailto://a@b.com" ≠ .ok "mailto://a@b.com" := by
  refine ⟨by decide, by decide, by decide⟩

/-- The invariants every successfully parsed special-scheme URL record
satisfies, used to re-parse the sanitizer's output. -/
def SpecialInv (r : URLRec) : Prop :=
  r.host ≠ [] ∧
  (∀ c ∈ r.host, forbiddenHostChar c = false ∧ c ≠ '/' ∧ c ≠ '\\' ∧
    c ≠ '?' ∧ c ≠ '#' ∧ c ≠ '@') ∧
  lowerL r.host = r.host ∧
  (∃ t, r.pathname = '/' :: t) ∧
  (∀ c ∈ r.pathname, inPathEncodeSet c = false ∧ c ≠ '?' ∧ c ≠ '#' ∧
    c ≠ '\\')

/-- `afterLastAt` is the identity on `@`-free lists. -/
theorem afterLastAt_eq_self (l : List Char) (h : ∀ c ∈ l, c ≠ '@') :
    afterLastAt l = l := by
  unfold afterLastAt
  rw [List.takeWhile_eq_self_iff.mpr
    (fun c hc => by simp [h c (List.mem_reverse.mp hc)]),
    List.reverse_reverse]

/-- The head of a `dropWhile` fails the predicate. -/
theorem dropWhile_head_not (p : Char → Bool) (l : List Char) (c : Char)
    (t : List Char) (h : l.dropWhile p = c :: t) : p c = false := by
  induction l with
  | nil => cases h
  | cons a l' ih =>
      by_cases ha : p a = true
      · rw [List.dropWhile_cons_of_pos ha] at h
        exact ih h
      · rw [List.dropWhile_cons_of_neg (by simpa using ha)] at h
        cases h
        simpa using ha

/-- Path encoding is the identity on already-encoded strings. -/
theorem encodePath_eq_self (l : List Char)
    (h : ∀ c ∈ l, inPathEncodeSet c = false) : encodePath l = l := by
  induction l with
  | nil => rfl
  | cons c t ih =>
      have hc : encodePathChar c = [c] := by
        unfold encodePathChar
        rw [if_neg (by simp [h c (List.mem_cons_self _ _)])]
      unfold encodePath at ih ⊢
      simp only [List.map_cons, List.flatten_cons, hc]
      rw [ih (fun u hu => h u (List.mem_cons_of_mem _ hu))]
      rfl

/-- Every character of a serialized parameter list sits above the
control/space range and differs from `#` and `?`-terminators relevant to
re-parsing (only `#` matters for the query). -/
theorem serializeParams_chars (l : List (List Char × List Char)) :
    ∀ c ∈ serializeParams l, 32 < c.toNat ∧ c ≠ '#' := by
  have hpair : ∀ kv : List Char × List Char, ∀ c ∈ serializePair kv,
      32 < c.toNat ∧ c ≠ '#' := by
    intro kv c hc
    unfold serializePair at hc
    rcases List.mem_append.mp hc with h | h
    · exact ⟨(formEncode_chars _ c h).1, (formEncode_chars _ c h).2.1⟩
    · rcases List.mem_cons.mp h with h | h
      · subst h; exact ⟨by decide, by decide⟩
      · exact ⟨(formEncode_chars _ c h).1, (formEncode_chars _ c h).2.1⟩
  induction l with
  | nil => intro c hc; cases hc
  | cons kv rest ih =>
      intro c hc
      cases rest with
      | nil => exact hpair kv c hc
      | cons kv2 rest2 =>
          have hc' : c ∈ serializePair kv ++ '&' :: serializeParams (kv2 :: rest2) := hc
          rcases List.mem_append.mp hc' with h | h
          · exact hpair kv c h
          · rcases List.mem_cons.mp h with h | h
            · subst h; exact ⟨by decide, by decide⟩
            · exact ih c h

/-- Filtering the dangerous parameters is idempotent. -/
theorem filterParams_idem (l : List (List Char × List Char)) :
    filterParams (filterParams l) = filterParams l :=
  List.filter_eq_self.mpr (fun _ ha => (List.mem_filter.mp ha).2)

/-- A successful `sanitize` comes from a successful body. -/
theorem sanitizeBody_of_ok (url y : String) (h : sanitize url = .ok y) :
    sanitizeBody url = .ok y := by
  unfold sanitize at h
  cases hb : sanitizeBody url with
  | ok v =>
      rw [hb] at h
      exact h
  | error e =>
      rw [hb] at h
      have h' : (if (containsSub e.data "Dangerous".data ||
          containsSub e.data "XSS".data) = true
        then (Except.error e : Except String String)
        else Except.error "Invalid URL format") = .ok y := h
      split at h' <;> exact Except.noConfusion h'

/-- Characters in the path encode set are single-byte code points. -/
theorem inPathEncodeSet_lt256 (c : Char) (h : inPathEncodeSet c = true) :
    c.toNat < 256 := by
  unfold inPathEncodeSet at h
  have h' : c.toNat ≤ 32 ∨ c = '"' ∨ c = '<' ∨ c = '>' ∨ c = '`' ∨
      c = '{' ∨ c = '}' ∨ c.toNat = 127 := by
    simpa [Bool.or_eq_true, decide_eq_true_eq, or_assoc] using h
  rcases h' with h' | h' | h' | h' | h' | h' | h' | h'
  · omega
  all_goals first
    | omega
    | (subst h'; decide)

/-- Every character emitted by `encodePath` over a source free of `?`,
`#`, `\` is outside the encode set and again free of those separators. -/
theorem encodePath_chars (l : List Char)
    (h : ∀ c ∈ l, c ≠ '?' ∧ c ≠ '#' ∧ c ≠ '\\') :
    ∀ c ∈ encodePath l,
      inPathEncodeSet c = false ∧ c ≠ '?' ∧ c ≠ '#' ∧ c ≠ '\\' := by
  intro c hc
  unfold encodePath at hc
  rcases List.mem_flatten.mp hc with ⟨seg, hseg, hcs⟩
  rcases List.mem_map.mp hseg with ⟨x, hx, hxs⟩
  rw [← hxs] at hcs
  unfold encodePathChar at hcs
  by_cases hset : inPathEncodeSet x = true
  · rw [if_pos hset] at hcs
    unfold percentByte at hcs
    have hx256 : x.toNat < 256 := inPathEncodeSet_lt256 x hset
    have hdiv : x.toNat / 16 < 16 := by omega
    have hmod : x.toNat % 16 < 16 := by omega
    have hhex : ∀ n : Nat, n < 16 →
        inPathEncodeSet (toHexDigit n) = false ∧ toHexDigit n ≠ '?' ∧
        toHexDigit n ≠ '#' ∧ toHexDigit n ≠ '\\' := by decide
    have hmem : c = '%' ∨ c = toHexDigit (x.toNat / 16) ∨
        c = toHexDigit (x.toNat % 16) := by simpa using hcs
    rcases hmem with hc' | hc' | hc'
    · subst hc'; refine ⟨by decide, by decide, by decide, by decide⟩
    · subst hc'; exact hhex _ hdiv
    · subst hc'; exact hhex _ hmod
  · rw [if_neg hset] at hcs
    have hc' : c = x := by simpa using hcs
    subst hc'
    exact ⟨by simpa using hset, (h c hx).1, (h c hx).2.1, (h c hx).2.2⟩


/-- `afterLastAt` selects from the original list. -/
theorem afterLastAt_subset (l : List Char) :
    ∀ c ∈ afterLastAt l, c ∈ l := by
  intro c hc
  unfold afterLastAt at hc
  have h1 := List.mem_reverse.mp hc
  have h2 := (List.takeWhile_sublist _).subset h1
  exact List.mem_reverse.mp h2

/-- `afterLastAt` never contains `@`. -/
theorem afterLastAt_not_at (l : List Char) :
    ∀ c ∈ afterLastAt l, c ≠ '@' := by
  intro c hc
  unfold afterLastAt at hc
  have h1 := List.mem_reverse.mp hc
  have h2 := List.mem_takeWhile_imp h1
  simpa using h2

/-- Every character of the host produced by the authority step avoids
the authority separators and `@`. -/
theorem specialAuth_host_chars (l : List Char) :
    ∀ c ∈ lowerL (afterLastAt (specialAuth l).1),
      c ≠ '/' ∧ c ≠ '\\' ∧ c ≠ '?' ∧ c ≠ '#' ∧ c ≠ '@' := by
  intro c hc
  rcases List.mem_map.mp hc with ⟨c0, hc0, hlc⟩
  have h1 : c0 ∈ (specialAuth l).1 := afterLastAt_subset _ _ hc0
  have hat : c0 ≠ '@' := afterLastAt_not_at _ _ hc0
  have hsep := List.mem_takeWhile_imp h1
  have hsep' : c0 ≠ '/' ∧ c0 ≠ '\\' ∧ c0 ≠ '?' ∧ c0 ≠ '#' := by
    simpa [-Bool.not_eq_true, and_assoc] using hsep
  subst hlc
  refine ⟨lowerChar_ne c0 '/' (Or.inl (by decide)) hsep'.1,
    lowerChar_ne c0 '\\' (Or.inl (by decide)) hsep'.2.1,
    lowerChar_ne c0 '?' (Or.inl (by decide)) hsep'.2.2.1,
    lowerChar_ne c0 '#' (Or.inl (by decide)) hsep'.2.2.2,
    lowerChar_ne c0 '@' (Or.inl (by decide)) hat⟩

/-- The path-and-beyond remainder produced by the authority step starts,
when non-empty, with one of the separators. -/
theorem specialAuth_rest_head (l : List Char) (c : Char) (t : List Char)
    (h : (specialAuth l).2 = c :: t) :
    (c = '/' || c = '\\' || c = '?' || c = '#') = true := by
  unfold specialAuth spanUntil at h
  have h2 : (!(c = '/' || c = '\\' || c = '?' || c = '#' : Bool)) = false :=
    dropWhile_head_not _ _ _ _ h
  cases hb : (c = '/' || c = '\\' || c = '?' || c = '#' : Bool) with
  | true => rfl
  | false =>
      rw [hb] at h2
      exact absurd h2 (by decide)

/-- Shape and character facts for the path produced by the path step. -/
theorem specialPath_facts (rest : List Char)
    (hhead : ∀ c t, rest = c :: t →
      (c = '/' || c = '\\' || c = '?' || c = '#') = true) :
    (∃ t, (specialPath rest).1 = '/' :: t) ∧
    (∀ c ∈ (specialPath rest).1,
      inPathEncodeSet c = false ∧ c ≠ '?' ∧ c ≠ '#' ∧ c ≠ '\\') := by
  simp only [specialPath]
  by_cases hr :
      (spanUntil (fun c => c = '?' || c = '#') rest).1 = []
  · rw [if_pos hr]
    refine ⟨⟨[], rfl⟩, ?_⟩
    intro c hc
    have hc' : c = '/' := by simpa using hc
    subst hc'
    refine ⟨by decide, by decide, by decide, by decide⟩
  · rw [if_neg hr]
    unfold spanUntil at hr ⊢
    cases hrest : rest with
    | nil =>
        subst hrest
        exact absurd rfl hr
    | cons r0 t0 =>
        have hp := hhead r0 t0 hrest
        subst hrest
        by_cases hq : (r0 = '?' || r0 = '#') = true
        · rw [List.takeWhile_cons_of_neg (by simp [hq])] at hr ⊢
          exact absurd rfl hr
        · have hq' : r0 ≠ '?' ∧ r0 ≠ '#' := by
            simpa [-Bool.not_eq_true] using hq
          have hslash : r0 = '/' ∨ r0 = '\\' := by
            have hp' : r0 = '/' ∨ r0 = '\\' ∨ r0 = '?' ∨ r0 = '#' := by
              simpa [Bool.or_eq_true, or_assoc] using hp
            rcases hp' with h | h | h | h
            · exact Or.inl h
            · exact Or.inr h
            · exact absurd h hq'.1
            · exact absurd h hq'.2
          rw [List.takeWhile_cons_of_pos (by simp [hq'.1, hq'.2])]
          have htake : ∀ c ∈ r0 :: List.takeWhile
              (fun c => !(c = '?' || c = '#' : Bool)) t0,
              c ≠ '?' ∧ c ≠ '#' := by
            intro c hc
            rcases List.mem_cons.mp hc with h | h
            · subst h; exact hq'
            · have := List.mem_takeWhile_imp h
              simpa [-Bool.not_eq_true] using this
          have hmap : ∀ c ∈ (r0 :: List.takeWhile
                (fun c => !(c = '?' || c = '#' : Bool)) t0).map
                (fun c => if c = '\\' then '/' else c),
              c ≠ '?' ∧ c ≠ '#' ∧ c ≠ '\\' := by
            intro c hc
            rcases List.mem_map.mp hc with ⟨c1, hc1, hmc⟩
            by_cases hb : c1 = '\\'
            · rw [← hmc, hb]
              refine ⟨by decide, by decide, by decide⟩
            · rw [← hmc, if_neg hb]
              exact ⟨(htake c1 hc1).1, (htake c1 hc1).2, hb⟩
          constructor
          · -- head of the encoded path is '/'
            have hmhead : (r0 :: List.takeWhile
                (fun c => !(c = '?' || c = '#' : Bool)) t0).map
                (fun c => if c = '\\' then '/' else c) =
                '/' :: (List.takeWhile
                  (fun c => !(c = '?' || c = '#' : Bool)) t0).map
                  (fun c => if c = '\\' then '/' else c) := by
              rcases hslash with h | h <;> subst h <;> simp
            rw [hmhead]
            unfold encodePath
            rw [List.map_cons, List.flatten_cons,
              show encodePathChar '/' = ['/'] from by decide]
            exact ⟨_, rfl⟩
          · intro c hc
            exact encodePath_chars _ hmap c hc

/-- Every successful `parseSpecialRest` satisfies the special-scheme
invariants and carries the scheme it was given. -/
theorem parseSpecialRest_inv (scheme l : List Char) (r : URLRec)
    (h : parseSpecialRest scheme l = some r) :
    SpecialInv r ∧ r.scheme = scheme := by
  simp only [parseSpecialRest] at h
  split at h
  · cases h
  · next hg =>
    cases h
    have hg' : ¬(lowerL (afterLastAt (specialAuth l).1) = []) ∧
        ∀ c ∈ lowerL (afterLastAt (specialAuth l).1),
          ¬(forbiddenHostChar c = true) := by
      simpa [Bool.or_eq_true, List.any_eq_true, not_or] using hg
    have hpath := specialPath_facts (specialAuth l).2
      (fun c t ht => specialAuth_rest_head l c t ht)
    refine ⟨⟨hg'.1, ?_, ?_, hpath.1, hpath.2⟩, rfl⟩
    · intro c hc
      have hf : forbiddenHostChar c = false := by
        have := hg'.2 c hc
        simpa using this
      have hrest := specialAuth_host_chars l c hc
      exact ⟨hf, hrest.1, hrest.2.1, hrest.2.2.1, hrest.2.2.2.1,
        hrest.2.2.2.2⟩
    · exact lowerL_idem _

/-- `parseNonSpecialRest` always carries the scheme it was given. -/
theorem parseNonSpecialRest_scheme (scheme l : List Char) (r : URLRec)
    (h : parseNonSpecialRest scheme l = some r) : r.scheme = scheme := by
  unfold parseNonSpecialRest at h
  split at h
  · split at h
    · cases h
    · cases h
      rfl
  · cases h
    rfl

/-- Every successfully parsed URL whose scheme is special satisfies the
special-scheme invariants. -/
theorem parse_special_inv (input : List Char) (r : URLRec)
    (hp : parseURLChars input = some r)
    (hsp : isSpecialScheme r.scheme = true) : SpecialInv r := by
  unfold parseURLChars at hp
  split at hp
  · cases hp
  · split at hp
    · split at hp
      · split at hp
        · exact (parseSpecialRest_inv _ _ r hp).1
        · next hns =>
            rw [parseNonSpecialRest_scheme _ _ _ hp] at hsp
            exact absurd hsp hns
      · cases hp
    · cases hp

/-- Re-parsing the authority of a rebuilt special URL recovers the host
exactly. -/
theorem specialAuth_build (host ptail q : List Char) (hh : host ≠ [])
    (hhc : ∀ c ∈ host, c ≠ '/' ∧ c ≠ '\\' ∧ c ≠ '?' ∧ c ≠ '#') :
    specialAuth ('/' :: '/' :: (host ++ ('/' :: (ptail ++ q)))) =
      (host, '/' :: (ptail ++ q)) := by
  unfold specialAuth
  have hX : ('/' :: '/' :: (host ++ ('/' :: (ptail ++ q)))).dropWhile
      (fun c => c = '/' || c = '\\') = host ++ ('/' :: (ptail ++ q)) := by
    cases hhost : host with
    | nil => exact absurd hhost hh
    | cons h0 host' =>
        have h0c := hhc h0 (by rw [hhost]; exact List.mem_cons_self _ _)
        subst hhost
        rw [List.dropWhile_cons_of_pos (by decide),
          List.dropWhile_cons_of_pos (by decide), List.cons_append,
          List.dropWhile_cons_of_neg (by simp [h0c.1, h0c.2.1])]
  rw [hX]
  exact spanUntil_append _ host '/' (ptail ++ q)
    (fun c hc => by simp [(hhc c hc).1, (hhc c hc).2.1, (hhc c hc).2.2.1,
      (hhc c hc).2.2.2]) (by decide)

/-- Re-parsing the path of a rebuilt special URL recovers path and query
part exactly. -/
theorem specialPath_build (pathname q : List Char)
    (hps : ∃ t, pathname = '/' :: t)
    (hpc : ∀ c ∈ pathname,
      inPathEncodeSet c = false ∧ c ≠ '?' ∧ c ≠ '#' ∧ c ≠ '\\')
    (hq : q = [] ∨ ∃ qt, q = '?' :: qt) :
    specialPath (pathname ++ q) = (pathname, q) := by
  simp only [specialPath]
  have hspan : spanUntil (fun c => c = '?' || c = '#') (pathname ++ q) =
      (pathname, q) := by
    rcases hq with rfl | ⟨qt, rfl⟩
    · rw [List.append_nil]
      exact spanUntil_all _ _
        (fun c hc => by simp [(hpc c hc).2.1, (hpc c hc).2.2.1])
    · exact spanUntil_append _ pathname '?' qt
        (fun c hc => by simp [(hpc c hc).2.1, (hpc c hc).2.2.1]) (by decide)
  rw [hspan]
  obtain ⟨pt, hpt⟩ := hps
  have hne : pathname ≠ [] := by rw [hpt]; exact List.cons_ne_nil _ _
  rw [if_neg hne]
  have hmap : pathname.map (fun c => if c = '\\' then '/' else c) =
      pathname := by
    have hcg := List.map_congr_left
      (fun c hc => if_neg ((hpc c hc).2.2.2) :
        ∀ c ∈ pathname, (if c = '\\' then '/' else c) = c)
    rw [hcg]
    simp
  rw [hmap, encodePath_eq_self pathname (fun c hc => (hpc c hc).1)]

/-- Re-parsing the scheme-rest of a rebuilt special URL recovers the
record exactly. -/
theorem parseSpecialRest_build (scheme host pathname qs : List Char)
    (hh : host ≠ [])
    (hhc : ∀ c ∈ host, forbiddenHostChar c = false ∧ c ≠ '/' ∧ c ≠ '\\' ∧
      c ≠ '?' ∧ c ≠ '#' ∧ c ≠ '@')
    (hlow : lowerL host = host)
    (hps : ∃ t, pathname = '/' :: t)
    (hpc : ∀ c ∈ pathname,
      inPathEncodeSet c = false ∧ c ≠ '?' ∧ c ≠ '#' ∧ c ≠ '\\')
    (hqs : ∀ c ∈ qs, c ≠ '#') :
    parseSpecialRest scheme
      ('/' :: '/' ::
        (host ++ (pathname ++ (if qs = [] then [] else '?' :: qs))))
      = some ⟨scheme, host, pathname, qs⟩ := by
  obtain ⟨pt, rfl⟩ := hps
  have hauth := specialAuth_build host pt (if qs = [] then [] else '?' :: qs)
    hh (fun c hc => ⟨(hhc c hc).2.1, (hhc c hc).2.2.1, (hhc c hc).2.2.2.1,
      (hhc c hc).2.2.2.2.1⟩)
  simp only [List.cons_append, parseSpecialRest, hauth]
  have haft : afterLastAt host = host :=
    afterLastAt_eq_self host (fun c hc => (hhc c hc).2.2.2.2.2)
  rw [haft, hlow]
  rw [if_neg (by
    simp only [Bool.or_eq_true, decide_eq_true_eq, List.any_eq_true, not_or]
    refine ⟨hh, ?_⟩
    rintro ⟨x, hx, hfx⟩
    rw [(hhc x hx).1] at hfx
    exact Bool.noConfusion hfx)]
  have hpath := specialPath_build ('/' :: pt)
    (if qs = [] then [] else '?' :: qs) ⟨pt, rfl⟩ hpc
    (by
      by_cases hq : qs = []
      · exact Or.inl (by rw [if_pos hq])
      · exact Or.inr ⟨qs, by rw [if_neg hq]⟩)
  have hpath' : specialPath
      ('/' :: (pt ++ (if qs = [] then [] else '?' :: qs))) =
      ('/' :: pt, if qs = [] then [] else '?' :: qs) := by
    rw [← List.cons_append]
    exact hpath
  simp only [hpath']
  by_cases hq : qs = []
  · subst hq
    rfl
  · rw [if_neg hq]
    have hqp : parseQueryPart ('?' :: qs) = qs := by
      show (spanUntil (fun c => c = '#') qs).1 = qs
      rw [spanUntil_all _ qs (fun c hc => by simp [hqs c hc])]
    rw [hqp]


/-- Forbidden-host-free characters sit above the control/space range. -/
theorem host_char_gt32 (c : Char) (h : forbiddenHostChar c = false) :
    32 < c.toNat := by
  unfold forbiddenHostChar at h
  by_cases hc : c.toNat ≤ 32
  · rw [show (decide (c.toNat ≤ 32) : Bool) = true by simp [hc]] at h
    simp at h
  · omega

/-- Encode-set-free characters sit above the control/space range. -/
theorem path_char_gt32 (c : Char) (h : inPathEncodeSet c = false) :
    32 < c.toNat := by
  unfold inPathEncodeSet at h
  by_cases hc : c.toNat ≤ 32
  · rw [show (decide (c.toNat ≤ 32) : Bool) = true by simp [hc]] at h
    simp at h
  · omega

/-- All characters of a rebuilt special URL sit above the control/space
range. -/
theorem build_chars_gt32 (sch host pathname qs : List Char)
    (hsch : ∀ c ∈ sch, 32 < c.toNat)
    (hhc : ∀ c ∈ host, forbiddenHostChar c = false)
    (hpc : ∀ c ∈ pathname, inPathEncodeSet c = false)
    (hq32 : ∀ c ∈ qs, 32 < c.toNat) :
    ∀ c ∈ sch ++ (':' :: '/' :: '/' ::
      (host ++ (pathname ++ (if qs = [] then [] else '?' :: qs)))),
      32 < c.toNat := by
  intro c hc
  rcases List.mem_append.mp hc with h | h
  · exact hsch c h
  · rcases List.mem_cons.mp h with rfl | h
    · decide
    rcases List.mem_cons.mp h with rfl | h
    · decide
    rcases List.mem_cons.mp h with rfl | h
    · decide
    rcases List.mem_append.mp h with h | h
    · exact host_char_gt32 c (hhc c h)
    rcases List.mem_append.mp h with h | h
    · exact path_char_gt32 c (hpc c h)
    by_cases hq : qs = []
    · rw [if_pos hq] at h
      cases h
    · rw [if_neg hq] at h
      rcases List.mem_cons.mp h with rfl | h
      · decide
      · exact hq32 c h

/-- Re-parsing a rebuilt special URL recovers the record exactly, for an
abstract scheme satisfying the scheme-shape facts. -/
theorem parseURL_build_special (c0 : Char) (cs host pathname qs : List Char)
    (hc0 : isAlphaChar c0 = true)
    (hcs : ∀ c ∈ cs, isSchemeChar c = true)
    (hlowsch : lowerL (c0 :: cs) = c0 :: cs)
    (hspec : isSpecialScheme (c0 :: cs) = true)
    (hsch32 : ∀ c ∈ c0 :: cs, 32 < c.toNat)
    (hh : host ≠ [])
    (hhc : ∀ c ∈ host, forbiddenHostChar c = false ∧ c ≠ '/' ∧ c ≠ '\\' ∧
      c ≠ '?' ∧ c ≠ '#' ∧ c ≠ '@')
    (hlow : lowerL host = host)
    (hps : ∃ t, pathname = '/' :: t)
    (hpc : ∀ c ∈ pathname,
      inPathEncodeSet c = false ∧ c ≠ '?' ∧ c ≠ '#' ∧ c ≠ '\\')
    (hq32 : ∀ c ∈ qs, 32 < c.toNat) (hqs : ∀ c ∈ qs, c ≠ '#') :
    parseURLChars ((c0 :: cs) ++ (':' :: '/' :: '/' ::
      (host ++ (pathname ++ (if qs = [] then [] else '?' :: qs))))) =
      some ⟨c0 :: cs, host, pathname, qs⟩ := by
  have hall := build_chars_gt32 (c0 :: cs) host pathname qs hsch32
    (fun c hc => (hhc c hc).1) (fun c hc => (hpc c hc).1) hq32
  have hprep : prepInput (c0 :: (cs ++ (':' :: '/' :: '/' ::
      (host ++ (pathname ++ (if qs = [] then [] else '?' :: qs)))))) =
      c0 :: (cs ++ (':' :: '/' :: '/' ::
      (host ++ (pathname ++ (if qs = [] then [] else '?' :: qs))))) :=
    prepInput_eq_self _ hall
  have hspan : spanUntil (fun c => !isSchemeChar c)
      (cs ++ (':' :: '/' :: '/' ::
        (host ++ (pathname ++ (if qs = [] then [] else '?' :: qs))))) =
      (cs, ':' :: '/' :: '/' ::
        (host ++ (pathname ++ (if qs = [] then [] else '?' :: qs)))) :=
    spanUntil_append _ cs ':'
      ('/' :: '/' :: (host ++ (pathname ++
        (if qs = [] then [] else '?' :: qs))))
      (fun c hc => by simp [hcs c hc]) (by decide)
  simp only [List.cons_append, parseURLChars, hprep]
  rw [if_pos hc0]
  simp only [hspan]
  rw [hlowsch, if_pos hspec]
  exact parseSpecialRest_build (c0 :: cs) host pathname qs hh hhc hlow hps
    hpc hqs

/-- Re-parsing the sanitizer's rebuilt output of any special-scheme URL
recovers exactly the original components and the emitted query. -/
theorem reparse_build (r : URLRec) (hsp : isSpecialScheme r.scheme = true)
    (hinv : SpecialInv r) (qs : List Char)
    (hq32 : ∀ c ∈ qs, 32 < c.toNat) (hqs : ∀ c ∈ qs, c ≠ '#') :
    parseURLChars (buildSafeURL r qs) =
      some ⟨r.scheme, r.host, r.pathname, qs⟩ := by
  obtain ⟨hh, hhc, hlow, hps, hpc⟩ := hinv
  have hsch : r.scheme = "http".data ∨ r.scheme = "https".data ∨
      r.scheme = "ws".data ∨ r.scheme = "wss".data ∨
      r.scheme = "ftp".data ∨ r.scheme = "file".data := by
    unfold isSpecialScheme at hsp
    simpa [Bool.or_eq_true, decide_eq_true_eq, or_assoc] using hsp
  unfold buildSafeURL
  rcases hsch with h | h | h | h | h | h <;> rw [h]
  · exact parseURL_build_special 'h' ['t', 't', 'p'] r.host r.pathname qs
      (by decide) (by decide) (by decide) (by decide) (by decide)
      hh hhc hlow hps hpc hq32 hqs
  · exact parseURL_build_special 'h' ['t', 't', 'p', 's'] r.host r.pathname
      qs (by decide) (by decide) (by decide) (by decide) (by decide)
      hh hhc hlow hps hpc hq32 hqs
  · exact parseURL_build_special 'w' ['s'] r.host r.pathname qs
      (by decide) (by decide) (by decide) (by decide) (by decide)
      hh hhc hlow hps hpc hq32 hqs
  · exact parseURL_build_special 'w' ['s', 's'] r.host r.pathname qs
      (by decide) (by decide) (by decide) (by decide) (by decide)
      hh hhc hlow hps hpc hq32 hqs
  · exact parseURL_build_special 'f' ['t', 'p'] r.host r.pathname qs
      (by decide) (by decide) (by decide) (by decide) (by decide)
      hh hhc hlow hps hpc hq32 hqs
  · exact parseURL_build_special 'f' ['i', 'l', 'e'] r.host r.pathname qs
      (by decide) (by decide) (by decide) (by decide) (by decide)
      hh hhc hlow hps hpc hq32 hqs

/-- Special schemes consist of printable characters. -/
theorem special_scheme_gt32 (s : List Char) (h : isSpecialScheme s = true) :
    ∀ c ∈ s, 32 < c.toNat := by
  unfold isSpecialScheme at h
  have hs : s = "http".data ∨ s = "https".data ∨ s = "ws".data ∨
      s = "wss".data ∨ s = "ftp".data ∨ s = "file".data := by
    simpa [Bool.or_eq_true, decide_eq_true_eq, or_assoc] using h
  rcases hs with rfl | rfl | rfl | rfl | rfl | rfl <;> decide

/-- **C6 amended.** `sanitize` is idempotent on the output it produces
for any input that parses with a special scheme (in particular every
`http`/`https` URL), provided that output again passes the
dangerous-protocol and XSS checks — the re-parse recovers exactly the
same scheme, host, path and (round-tripped) query, so the second pass
rebuilds the identical string.  (The unrestricted claim is refuted by
`c6_sanitize_not_idempotent`; an output that re-trips a guard, e.g. one
whose surviving query contains a key like `onload`, throws instead.) -/
theorem c6_sanitize_idempotent_amended (x y : String) (r : URLRec)
    (hok : sanitize x = .ok y)
    (hp : parseURLChars (jsTrim x.data) = some r)
    (hsp : isSpecialScheme r.scheme = true)
    (hyd : startsWithDangerous (lowerL (jsTrim y.data)) = false)
    (hyx : hasXSS (jsTrim y.data) = false) :
    sanitize y = .ok y := by
  have hbody := sanitizeBody_of_ok x y hok
  by_cases hd : startsWithDangerous (lowerL (jsTrim x.data)) = true
  · rw [show sanitizeBody x = .error "Dangerous protocol detected" from by
      simp [sanitizeBody, hd]] at hbody
    exact absurd hbody (by simp)
  · have hd' : startsWithDangerous (lowerL (jsTrim x.data)) = false := by
      cases h' : startsWithDangerous (lowerL (jsTrim x.data))
      · rfl
      · exact absurd h' hd
    by_cases hx : hasXSS (jsTrim x.data) = true
    · rw [show sanitizeBody x = .error "XSS pattern detected" from by
        simp [sanitizeBody, hd', hx]] at hbody
      exact absurd hbody (by simp)
    · have hx' : hasXSS (jsTrim x.data) = false := by
        cases h' : hasXSS (jsTrim x.data)
        · rfl
        · exact absurd h' hx
      have hval : sanitizeBody x = .ok ⟨buildSafeURL r
          (serializeParams (filterParams (parseParams r.search)))⟩ := by
        simp [sanitizeBody, hd', hx', hp]
      rw [hval] at hbody
      have hy : y = ⟨buildSafeURL r
          (serializeParams (filterParams (parseParams r.search)))⟩ := by
        injection hbody with h2
        exact h2.symm
      subst hy
      have hq32 : ∀ c ∈ serializeParams (filterParams (parseParams r.search)),
          32 < c.toNat :=
        fun c hc => (serializeParams_chars _ c hc).1
      have hqh : ∀ c ∈ serializeParams (filterParams (parseParams r.search)),
          c ≠ '#' :=
        fun c hc => (serializeParams_chars _ c hc).2
      have hinv := parse_special_inv _ r hp hsp
      have hrep := reparse_build r hsp hinv _ hq32 hqh
      have hall : ∀ c ∈ buildSafeURL r
          (serializeParams (filterParams (parseParams r.search))),
          32 < c.toNat := by
        obtain ⟨hh, hhc, hlow, hps, hpc⟩ := hinv
        exact build_chars_gt32 r.scheme r.host r.pathname _
          (special_scheme_gt32 r.scheme hsp) (fun c hc => (hhc c hc).1)
          (fun c hc => (hpc c hc).1) hq32
      have htrim : jsTrim (buildSafeURL r
          (serializeParams (filterParams (parseParams r.search)))) =
          buildSafeURL r
            (serializeParams (filterParams (parseParams r.search))) :=
        jsTrim_eq_self _ hall
      have hyd' : startsWithDangerous (lowerL (buildSafeURL r
          (serializeParams (filterParams (parseParams r.search))))) =
          false := by
        rw [← htrim]
        exact hyd
      have hyx' : hasXSS (buildSafeURL r
          (serializeParams (filterParams (parseParams r.search)))) =
          false := by
        rw [← htrim]
        exact hyx
      have hround : filterParams (parseParams (serializeParams
          (filterParams (parseParams r.search)))) =
          filterParams (parseParams r.search) := by
        rw [parseParams_serializeParams]
        exact filterParams_idem _
      have hbody2 : sanitizeBody ⟨buildSafeURL r
          (serializeParams (filterParams (parseParams r.search)))⟩ =
          .ok ⟨buildSafeURL r
            (serializeParams (filterParams (parseParams r.search)))⟩ := by
        simp only [sanitizeBody, htrim, hyd', hyx', hrep, hround,
          Bool.false_eq_true, if_false]
        rfl
      simp [sanitize, hbody2]

/-- Witness for the amended **C6**: re-sanitizing the output produced for
`https://example.com?url=bad&safe=ok` returns it unchanged. -/
theorem c6_sanitize_idempotent_amended_witness :
    sanitize "https://example.com/?safe=ok" =
      .ok "https://example.com/?safe=ok" :=
  c6_sanitize_idempotent_amended "https://example.com?url=bad&safe=ok"
    "https://example.com/?safe=ok"
    ⟨"https".data, "example.com".data, "/".data, "url=bad&safe=ok".data⟩
    (by decide) (by decide) (by decide) (by decide) (by decide)

end Snatch
